import Mathlib

/-!
Verification development for the `ratarmount` sources
(`ratarmount.py`, `JoinedFileMount.py`): a shallow embedding in Lean 4 of the
index codec (`IndexedTar.dump` / `IndexedTar.load`), the path-tree operations
(`getFileInfo`, `setFileInfo`, `setDirInfo`, `createIndex`'s per-entry insertion),
the FUSE adapter callbacks (`getattr`, `readdir`, `readlink`) and the
`JoinedFile` stream (`_findStencil`, `seek`, `read`, `tell`), together with
theorems settling the specification's claims about them.

Bytes are modelled as natural numbers (every value produced below is `< 256`),
byte streams as `List Nat`, Python `str` as Lean `String`, Python `dict` as an
association list that keeps insertion order (Python 3.7+ dicts preserve
insertion order; key uniqueness is inherent to dicts and appears below as the
`wfEntries` well-formedness predicate).
-/

/-! ## Byte-level helpers (Python `int.to_bytes` / `int.from_bytes`) -/

/-- Little-endian byte list of width `w` for `n` (the digits of `n` in base 256,
padded to length `w`).  Used to model Python's `n.to_bytes(w, 'little')`. -/
def leBytes : Nat → Nat → List Nat
  | 0, _ => []
  | w + 1, n => n % 256 :: leBytes w (n / 256)

/-- Python `n.to_bytes(w, 'little')`: the `w` little-endian bytes of `n`,
raising `OverflowError` (modelled as `none`) when `n` does not fit. -/
def toBytesLE (w n : Nat) : Option (List Nat) :=
  if n < 256 ^ w then some (leBytes w n) else none

/-- Python `int.from_bytes(bs, 'little')` (defined for any length, including 0). -/
def fromBytesLE : List Nat → Nat
  | [] => 0
  | b :: rest => b + 256 * fromBytesLE rest

theorem leBytes_length (w n : Nat) : (leBytes w n).length = w := by
  induction w generalizing n with
  | zero => rfl
  | succ w ih => simp [leBytes, ih]

theorem fromBytesLE_leBytes (w n : Nat) (h : n < 256 ^ w) :
    fromBytesLE (leBytes w n) = n := by
  induction w generalizing n with
  | zero => simp [Nat.pow_zero] at h; simp [leBytes, fromBytesLE, h]
  | succ w ih =>
    have hdiv : n / 256 < 256 ^ w := by
      rw [Nat.div_lt_iff_lt_mul (by norm_num)]
      calc n < 256 ^ (w + 1) := h
        _ = 256 ^ w * 256 := by ring
    simp [leBytes, fromBytesLE, ih _ hdiv]
    omega

theorem toBytesLE_eq_some {w n : Nat} {bs : List Nat} (h : toBytesLE w n = some bs) :
    bs = leBytes w n ∧ n < 256 ^ w := by
  unfold toBytesLE at h
  split at h
  · exact ⟨(Option.some.injEq _ _ ▸ h).symm, by assumption⟩
  · exact absurd h (by simp)

/-! ## UTF-8 (Python `str.encode()` / `bytes.decode()`)

The source calls Python's built-in UTF-8 codec on the index keys.  We model it
directly: `utf8EncodeChar` produces the standard 1–4 byte encoding of a Unicode
scalar value, and the decoder validates continuation bytes, rejects overlong
forms, surrogates and out-of-range values, as the strict `bytes.decode()` does. -/

def utf8EncodeChar (c : Char) : List Nat :=
  let n := c.toNat
  if n < 0x80 then [n]
  else if n < 0x800 then [0xC0 + n / 64, 0x80 + n % 64]
  else if n < 0x10000 then [0xE0 + n / 4096, 0x80 + n / 64 % 64, 0x80 + n % 64]
  else [0xF0 + n / 262144, 0x80 + n / 4096 % 64, 0x80 + n / 64 % 64, 0x80 + n % 64]

def utf8EncodeList : List Char → List Nat
  | [] => []
  | c :: cs => utf8EncodeChar c ++ utf8EncodeList cs

def utf8Encode (s : String) : List Nat := utf8EncodeList s.data

/-- Decode one UTF-8 encoded scalar from the head of a byte stream, returning
the decoded character and the remaining bytes. -/
def utf8DecodeChar : List Nat → Option (Char × List Nat)
  | [] => none
  | b :: bs =>
    if b < 0x80 then some (Char.ofNat b, bs)
    else if b < 0xC0 then none
    else if b < 0xE0 then
      match bs with
      | b1 :: r =>
        if 0x80 ≤ b1 ∧ b1 < 0xC0 then
          let n := (b - 0xC0) * 64 + (b1 - 0x80)
          if 0x80 ≤ n then some (Char.ofNat n, r) else none
        else none
      | [] => none
    else if b < 0xF0 then
      match bs with
      | b1 :: b2 :: r =>
        if (0x80 ≤ b1 ∧ b1 < 0xC0) ∧ (0x80 ≤ b2 ∧ b2 < 0xC0) then
          let n := (b - 0xE0) * 4096 + (b1 - 0x80) * 64 + (b2 - 0x80)
          if 0x800 ≤ n ∧ ¬ (0xD800 ≤ n ∧ n < 0xE000) then some (Char.ofNat n, r)
          else none
        else none
      | _ => none
    else if b < 0xF8 then
      match bs with
      | b1 :: b2 :: b3 :: r =>
        if (0x80 ≤ b1 ∧ b1 < 0xC0) ∧ (0x80 ≤ b2 ∧ b2 < 0xC0) ∧ (0x80 ≤ b3 ∧ b3 < 0xC0) then
          let n := (b - 0xF0) * 262144 + (b1 - 0x80) * 4096 + (b2 - 0x80) * 64 + (b3 - 0x80)
          if 0x10000 ≤ n ∧ n < 0x110000 then some (Char.ofNat n, r) else none
        else none
      | _ => none
    else none

/-- Decode a whole byte string (with fuel; one unit per decoded character,
so `bs.length` is always enough). -/
def utf8DecodeListF : Nat → List Nat → Option (List Char)
  | _, [] => some []
  | 0, _ :: _ => none
  | fuel + 1, bs =>
    match utf8DecodeChar bs with
    | some (c, r) => (utf8DecodeListF fuel r).map (c :: ·)
    | none => none

/-- Python `bytes.decode()` (strict UTF-8): all bytes are consumed. -/
def utf8Decode (bs : List Nat) : Option (List Char) :=
  utf8DecodeListF bs.length bs

theorem utf8DecodeChar_encode (c : Char) (rest : List Nat) :
    utf8DecodeChar (utf8EncodeChar c ++ rest) = some (c, rest) := by
  have hval : c.toNat < 0xD800 ∨ (0xDFFF < c.toNat ∧ c.toNat < 0x110000) := by
    rcases c.valid with h | h
    · exact Or.inl h
    · exact Or.inr h
  have hofNat : Char.ofNat c.toNat = c := Char.ofNat_toNat c
  set n := c.toNat with hn
  unfold utf8EncodeChar
  by_cases h1 : n < 0x80
  · simp only [← hn, if_pos h1, List.cons_append, List.nil_append]
    simp only [utf8DecodeChar, if_pos h1, hofNat]
  · by_cases h2 : n < 0x800
    · simp only [← hn, if_neg h1, if_pos h2, List.cons_append, List.nil_append]
      have hb0a : ¬ (0xC0 + n / 64 < 0x80) := by omega
      have hb0b : ¬ (0xC0 + n / 64 < 0xC0) := by omega
      have hb0c : 0xC0 + n / 64 < 0xE0 := by omega
      have hb1 : 0x80 ≤ 0x80 + n % 64 ∧ 0x80 + n % 64 < 0xC0 := ⟨by omega, by omega⟩
      have harith : (0xC0 + n / 64 - 0xC0) * 64 + (0x80 + n % 64 - 0x80) = n := by omega
      have hge : 0x80 ≤ n := by omega
      simp only [utf8DecodeChar, if_neg hb0a, if_neg hb0b, if_pos hb0c, if_pos hb1, harith,
        if_pos hge, hofNat]
    · by_cases h3 : n < 0x10000
      · simp only [← hn, if_neg h1, if_neg h2, if_pos h3, List.cons_append, List.nil_append]
        have hb0a : ¬ (0xE0 + n / 4096 < 0x80) := by omega
        have hb0b : ¬ (0xE0 + n / 4096 < 0xC0) := by omega
        have hb0c : ¬ (0xE0 + n / 4096 < 0xE0) := by omega
        have hb0d : 0xE0 + n / 4096 < 0xF0 := by omega
        have hb12 : (0x80 ≤ 0x80 + n / 64 % 64 ∧ 0x80 + n / 64 % 64 < 0xC0) ∧
            (0x80 ≤ 0x80 + n % 64 ∧ 0x80 + n % 64 < 0xC0) := by
          refine ⟨⟨?_, ?_⟩, ?_, ?_⟩ <;> omega
        have harith : (0xE0 + n / 4096 - 0xE0) * 4096 + (0x80 + n / 64 % 64 - 0x80) * 64 +
            (0x80 + n % 64 - 0x80) = n := by omega
        have hrange : 0x800 ≤ n ∧ ¬ (0xD800 ≤ n ∧ n < 0xE000) := ⟨by omega, by omega⟩
        simp only [utf8DecodeChar, if_neg hb0a, if_neg hb0b, if_neg hb0c, if_pos hb0d,
          if_pos hb12, harith, if_pos hrange, hofNat]
      · have h4 : n < 0x110000 := by omega
        simp only [← hn, if_neg h1, if_neg h2, if_neg h3, List.cons_append, List.nil_append]
        have hb0a : ¬ (0xF0 + n / 262144 < 0x80) := by omega
        have hb0b : ¬ (0xF0 + n / 262144 < 0xC0) := by omega
        have hb0c : ¬ (0xF0 + n / 262144 < 0xE0) := by omega
        have hb0d : ¬ (0xF0 + n / 262144 < 0xF0) := by omega
        have hb0e : 0xF0 + n / 262144 < 0xF8 := by omega
        have hb123 : (0x80 ≤ 0x80 + n / 4096 % 64 ∧ 0x80 + n / 4096 % 64 < 0xC0) ∧
            (0x80 ≤ 0x80 + n / 64 % 64 ∧ 0x80 + n / 64 % 64 < 0xC0) ∧
            (0x80 ≤ 0x80 + n % 64 ∧ 0x80 + n % 64 < 0xC0) := by
          refine ⟨⟨?_, ?_⟩, ⟨?_, ?_⟩, ?_, ?_⟩ <;> omega
        have harith : (0xF0 + n / 262144 - 0xF0) * 262144 + (0x80 + n / 4096 % 64 - 0x80) * 4096 +
            (0x80 + n / 64 % 64 - 0x80) * 64 + (0x80 + n % 64 - 0x80) = n := by omega
        have hrange : 0x10000 ≤ n ∧ n < 0x110000 := ⟨by omega, h4⟩
        simp only [utf8DecodeChar, if_neg hb0a, if_neg hb0b, if_neg hb0c, if_neg hb0d,
          if_pos hb0e, if_pos hb123, harith, if_pos hrange, hofNat]

theorem utf8EncodeChar_length_pos (c : Char) : 0 < (utf8EncodeChar c).length := by
  by_cases h1 : c.toNat < 0x80 <;> by_cases h2 : c.toNat < 0x800 <;>
    by_cases h3 : c.toNat < 0x10000 <;> simp [utf8EncodeChar, h1, h2, h3]

theorem utf8EncodeList_length_ge (cs : List Char) :
    cs.length ≤ (utf8EncodeList cs).length := by
  induction cs with
  | nil => simp [utf8EncodeList]
  | cons c cs ih =>
    have := utf8EncodeChar_length_pos c
    simp only [utf8EncodeList, List.length_append, List.length_cons]
    omega

theorem utf8DecodeListF_encode (cs : List Char) (fuel : Nat) (hf : cs.length ≤ fuel) :
    utf8DecodeListF fuel (utf8EncodeList cs) = some cs := by
  induction fuel generalizing cs with
  | zero =>
    have : cs = [] := by
      cases cs with
      | nil => rfl
      | cons c cs => simp at hf
    subst this; rfl
  | succ fuel ih =>
    cases cs with
    | nil => rfl
    | cons c cs =>
      have henc := utf8DecodeChar_encode c (utf8EncodeList cs)
      have hne : utf8EncodeList (c :: cs) ≠ [] := by
        have := utf8EncodeChar_length_pos c
        simp only [utf8EncodeList]
        intro hcon
        rw [List.append_eq_nil] at hcon
        simp [hcon.1] at this
      cases hlist : utf8EncodeList (c :: cs) with
      | nil => exact absurd hlist hne
      | cons b bs =>
        rw [show utf8EncodeList (c :: cs) = utf8EncodeChar c ++ utf8EncodeList cs from rfl]
          at hlist
        simp only [utf8DecodeListF, ← hlist,
          show utf8EncodeList (c :: cs) = utf8EncodeChar c ++ utf8EncodeList cs from rfl, henc]
        rw [ih cs (by simp at hf; omega)]
        rfl

theorem utf8Decode_encode (s : String) : utf8Decode (utf8Encode s) = some s.data := by
  unfold utf8Decode utf8Encode
  exact utf8DecodeListF_encode s.data _ (utf8EncodeList_length_ge s.data)

/-! ## FileInfo (`FileInfo = namedtuple(..., "offset size mtime mode type linkname uid gid istar")`) -/

/-- The source's `FileInfo` named tuple.  `mtime` is a rational because the root
entry built by `TarMount.__init__` stores a (possibly fractional) `st_mtime`,
which `getattr` later truncates with Python `int()`.  The TAR `type` field is a
single byte. -/
structure FileInfo where
  offset : Nat
  size : Nat
  mtime : ℚ
  mode : Nat
  type : Nat
  linkname : String
  uid : Nat
  gid : Nat
  istar : Bool
deriving DecidableEq, Repr

/-- Modelled from the spec: the source serializes a `FileInfo` value with the
external `msgpack` library, which is not part of this repository.  Spec §4.D
describes the payload as "a packed field sequence encoding the 9 fields in
declaration order" with `offset`/`size` unsigned 64-bit, `mtime` signed 64-bit,
`mode` 16-bit, `type` a single byte, `linkname` a length-prefixed UTF-8 string
and `uid`/`gid` 32-bit unsigned.  We realize that packed sequence directly;
out-of-range fields fail (as a fixed-width pack must). -/
def mtimeBytes (q : ℚ) : Option (List Nat) :=
  if q.den = 1 ∧ -(2 ^ 63) ≤ q.num ∧ q.num < 2 ^ 63 then
    toBytesLE 8 ((q.num + 2 ^ 64).toNat % 2 ^ 64)
  else none

def fiEncode (fi : FileInfo) : Option (List Nat) := do
  let o ← toBytesLE 8 fi.offset
  let s ← toBytesLE 8 fi.size
  let m ← mtimeBytes fi.mtime
  let md ← toBytesLE 2 fi.mode
  let ty ← toBytesLE 1 fi.type
  let ln := utf8Encode fi.linkname
  let ll ← toBytesLE 4 ln.length
  let u ← toBytesLE 4 fi.uid
  let g ← toBytesLE 4 fi.gid
  pure (o ++ s ++ m ++ md ++ ty ++ ll ++ ln ++ u ++ g ++ [if fi.istar then 1 else 0])

/-- Take exactly `k` bytes from the stream, failing if fewer are available. -/
def takeN (k : Nat) (bs : List Nat) : Option (List Nat × List Nat) :=
  if k ≤ bs.length then some (bs.take k, bs.drop k) else none

/-- Modelled from the spec (see `fiEncode`): decoder for the packed
`FileInfo` field sequence; consumes the whole blob. -/
def fiDecode (bs : List Nat) : Option FileInfo := do
  let (o, r1) ← takeN 8 bs
  let (s, r2) ← takeN 8 r1
  let (m, r3) ← takeN 8 r2
  let (md, r4) ← takeN 2 r3
  let (ty, r5) ← takeN 1 r4
  let (ll, r6) ← takeN 4 r5
  let (ln, r7) ← takeN (fromBytesLE ll) r6
  let (u, r8) ← takeN 4 r7
  let (g, r9) ← takeN 4 r8
  let (ist, r10) ← takeN 1 r9
  if r10 = [] then do
    let lchars ← utf8Decode ln
    let mn := fromBytesLE m
    let mi : Int := if mn < 2 ^ 63 then (mn : Int) else (mn : Int) - 2 ^ 64
    pure { offset := fromBytesLE o, size := fromBytesLE s, mtime := (mi : ℚ),
           mode := fromBytesLE md, type := fromBytesLE ty, linkname := ⟨lchars⟩,
           uid := fromBytesLE u, gid := fromBytesLE g,
           istar := fromBytesLE ist = 1 }
  else none

theorem takeN_append (a b : List Nat) : takeN a.length (a ++ b) = some (a, b) := by
  unfold takeN
  rw [if_pos (by simp)]
  simp

theorem mtimeBytes_eq_some {q : ℚ} {m : List Nat} (h : mtimeBytes q = some m) :
    q.den = 1 ∧ -(2 ^ 63) ≤ q.num ∧ q.num < 2 ^ 63 ∧
      m = leBytes 8 ((q.num + 2 ^ 64).toNat % 2 ^ 64) := by
  by_cases hcond : q.den = 1 ∧ -(2 ^ 63) ≤ q.num ∧ q.num < 2 ^ 63
  · rw [mtimeBytes, if_pos hcond] at h
    obtain ⟨hm, _⟩ := toBytesLE_eq_some h
    exact ⟨hcond.1, hcond.2.1, hcond.2.2, hm⟩
  · rw [mtimeBytes, if_neg hcond] at h
    exact absurd h (by simp)

theorem fiEncode_length_le (fi : FileInfo) (bs : List Nat) (h : fiEncode fi = some bs) :
    (utf8Encode fi.linkname).length < 2 ^ 32 ∧
      bs.length = 40 + (utf8Encode fi.linkname).length := by
  unfold fiEncode at h
  simp only [Option.bind_eq_bind, Option.bind_eq_some] at h
  obtain ⟨o, ho, s, hs, m, hm, md, hmd, ty, hty, ll, hll, u, hu, g, hg, hbs⟩ := h
  obtain ⟨ho', _⟩ := toBytesLE_eq_some ho
  obtain ⟨hs', _⟩ := toBytesLE_eq_some hs
  have hm' : m.length = 8 := by
    obtain ⟨-, -, -, hm''⟩ := mtimeBytes_eq_some hm
    simp [hm'', leBytes_length]
  obtain ⟨hmd', _⟩ := toBytesLE_eq_some hmd
  obtain ⟨hty', _⟩ := toBytesLE_eq_some hty
  obtain ⟨hll', hlen⟩ := toBytesLE_eq_some hll
  obtain ⟨hu', _⟩ := toBytesLE_eq_some hu
  obtain ⟨hg', _⟩ := toBytesLE_eq_some hg
  simp only [Option.pure_def, Option.some.injEq] at hbs
  subst hbs
  refine ⟨hlen, ?_⟩
  simp only [ho', hs', hm', hmd', hty', hll', hu', hg', List.length_append,
    leBytes_length, List.length_cons, List.length_nil]
  omega


theorem takeN_leBytes (w n : Nat) (rest : List Nat) :
    takeN w (leBytes w n ++ rest) = some (leBytes w n, rest) := by
  have h := takeN_append (leBytes w n) rest
  rwa [leBytes_length] at h

theorem fiDecode_fiEncode (fi : FileInfo) (bs : List Nat) (h : fiEncode fi = some bs) :
    fiDecode bs = some fi := by
  unfold fiEncode at h
  simp only [Option.bind_eq_bind, Option.bind_eq_some] at h
  obtain ⟨o, ho, s, hs, m, hm, md, hmd, ty, hty, ll, hll, u, hu, g, hg, hbs⟩ := h
  obtain ⟨ho', hob⟩ := toBytesLE_eq_some ho
  obtain ⟨hs', hsb⟩ := toBytesLE_eq_some hs
  obtain ⟨hmden, hmlo, hmhi, hm'⟩ := mtimeBytes_eq_some hm
  obtain ⟨hmd', hmdb⟩ := toBytesLE_eq_some hmd
  obtain ⟨hty', htyb⟩ := toBytesLE_eq_some hty
  obtain ⟨hll', hlen⟩ := toBytesLE_eq_some hll
  obtain ⟨hu', hub⟩ := toBytesLE_eq_some hu
  obtain ⟨hg', hgb⟩ := toBytesLE_eq_some hg
  simp only [Option.pure_def, Option.some.injEq] at hbs
  subst hbs ho' hs' hm' hmd' hty' hll' hu' hg'
  unfold fiDecode
  simp only [List.append_assoc]
  rw [takeN_leBytes]
  simp only [Option.bind_eq_bind, Option.some_bind]
  rw [takeN_leBytes]
  simp only [Option.some_bind]
  rw [takeN_leBytes]
  simp only [Option.some_bind]
  rw [takeN_leBytes]
  simp only [Option.some_bind]
  rw [takeN_leBytes]
  simp only [Option.some_bind]
  rw [takeN_leBytes]
  simp only [Option.some_bind]
  rw [fromBytesLE_leBytes _ _ hlen, takeN_append]
  simp only [Option.some_bind]
  rw [takeN_leBytes]
  simp only [Option.some_bind]
  rw [takeN_leBytes]
  simp only [Option.some_bind]
  rw [show takeN 1 [if fi.istar then (1 : Nat) else 0] =
    some ([if fi.istar then (1 : Nat) else 0], []) from by simp [takeN]]
  simp only [Option.some_bind, if_pos rfl, utf8Decode_encode fi.linkname]
  have hmnat : fromBytesLE (leBytes 8 ((fi.mtime.num + 2 ^ 64).toNat % 2 ^ 64)) =
      (fi.mtime.num + 2 ^ 64).toNat % 2 ^ 64 := by
    apply fromBytesLE_leBytes
    calc (fi.mtime.num + 2 ^ 64).toNat % 2 ^ 64 < 2 ^ 64 := Nat.mod_lt _ (by norm_num)
      _ ≤ 256 ^ 8 := by norm_num
  have hq : ((fi.mtime.num : Int) : ℚ) = fi.mtime := by
    rw [← Rat.num_div_den fi.mtime, hmden]
    norm_num
  have hmrec : ((if (fi.mtime.num + 2 ^ 64).toNat % 2 ^ 64 < 2 ^ 63
      then (((fi.mtime.num + 2 ^ 64).toNat % 2 ^ 64 : Nat) : Int)
      else (((fi.mtime.num + 2 ^ 64).toNat % 2 ^ 64 : Nat) : Int) - 2 ^ 64) : Int) =
      fi.mtime.num := by
    rcases le_or_lt 0 fi.mtime.num with hpos | hneg
    · rw [if_pos (by omega)]
      omega
    · rw [if_neg (by omega)]
      omega
  simp only [Option.some_bind, Option.pure_def, Option.some.injEq, hmnat, hmrec,
    fromBytesLE_leBytes _ _ hob, fromBytesLE_leBytes _ _ hsb,
    fromBytesLE_leBytes _ _ hmdb, fromBytesLE_leBytes _ _ htyb,
    fromBytesLE_leBytes _ _ hub, fromBytesLE_leBytes _ _ hgb, hq]
  obtain ⟨off, sz, mt, mo, ty0, ln, u0, g0, ist0⟩ := fi
  simp only [FileInfo.mk.injEq, true_and, and_true]
  cases ist0 <;> simp [fromBytesLE]

/-! ## The path tree (`self.fileIndex`)

`fileIndex` is a Python dict whose values are either `FileInfo` leaves or
nested dicts.  We model it as a tagged tree over insertion-ordered association
lists. -/

inductive PathNode where
  | leaf (fi : FileInfo)
  | dir (entries : List (String × PathNode))

abbrev Entries := List (String × PathNode)

mutual
def decEqPathNode : (a b : PathNode) → Decidable (a = b)
  | .leaf f1, .leaf f2 =>
    match decEq f1 f2 with
    | isTrue h => isTrue (by rw [h])
    | isFalse h => isFalse (by intro hc; cases hc; exact h rfl)
  | .leaf _, .dir _ => isFalse (fun h => PathNode.noConfusion h)
  | .dir _, .leaf _ => isFalse (fun h => PathNode.noConfusion h)
  | .dir e1, .dir e2 =>
    match decEqEntries e1 e2 with
    | isTrue h => isTrue (by rw [h])
    | isFalse h => isFalse (by intro hc; cases hc; exact h rfl)
def decEqEntries : (a b : Entries) → Decidable (a = b)
  | [], [] => isTrue rfl
  | [], _ :: _ => isFalse (fun h => List.noConfusion h)
  | _ :: _, [] => isFalse (fun h => List.noConfusion h)
  | (k1, v1) :: r1, (k2, v2) :: r2 =>
    match String.decEq k1 k2 with
    | isFalse h => isFalse (by
        intro hc
        injection hc with h1 h2
        injection h1 with hk hv
        exact h hk)
    | isTrue hk =>
      match decEqPathNode v1 v2 with
      | isFalse h => isFalse (by
          intro hc
          injection hc with h1 h2
          injection h1 with hk' hv
          exact h hv)
      | isTrue hv =>
        match decEqEntries r1 r2 with
        | isFalse h => isFalse (by
            intro hc
            injection hc with h1 h2
            exact h h2)
        | isTrue hr => isTrue (by rw [hk, hv, hr])
end

instance : DecidableEq PathNode := decEqPathNode

/-- Dict lookup `p[name]` / `name in p` on a directory dict. -/
def lookupKey : Entries → String → Option PathNode
  | [], _ => none
  | (k', v) :: rest, k => if k' = k then some v else lookupKey rest k

/-- Python dict item assignment `d[k] = v`: replaces the value in place if the
key exists (keeping its position), otherwise appends. -/
def pyDictInsert : Entries → String → PathNode → Entries
  | [], k, v => [(k, v)]
  | (k', v') :: rest, k, v =>
    if k' = k then (k, v) :: rest else (k', v') :: pyDictInsert rest k v

def hasKey (es : Entries) (k : String) : Bool :=
  es.any (fun p => p.1 == k)

mutual
/-- Well-formedness that is automatic for Python dicts: keys are unique at
every level of the tree. -/
def wfNode : PathNode → Bool
  | .leaf _ => true
  | .dir es => wfEntries es
def wfEntries : Entries → Bool
  | [] => true
  | (k, v) :: rest => !hasKey rest k && wfNode v && wfEntries rest
end

/-! ## The custom index codec (`IndexedTar.dump` / `IndexedTar.load`) -/

mutual
/-- `IndexedTar.dump`: tag `0x01` opens a dict, `0x03` marks each key-value
pair (key serialized as tag `0x04` + 4-byte little-endian length + UTF-8
bytes, the value recursively), `0x02` closes the dict; a `FileInfo` is tag
`0x05` + 4-byte little-endian length + the msgpack payload (`fiEncode`).
`none` models the `OverflowError` from `to_bytes(4, 'little')` on oversized
lengths. -/
def dumpNode : PathNode → Option (List Nat)
  | .dir entries => do
      let inner ← dumpEntries entries
      pure (1 :: inner ++ [2])
  | .leaf fi => do
      let blob ← fiEncode fi
      let len ← toBytesLE 4 blob.length
      pure (5 :: len ++ blob)
def dumpEntries : Entries → Option (List Nat)
  | [] => pure []
  | (k, v) :: rest => do
      let kl ← toBytesLE 4 (utf8Encode k).length
      let ve ← dumpNode v
      let re ← dumpEntries rest
      pure (3 :: (4 :: kl ++ utf8Encode k) ++ ve ++ re)
end

/-- The loop body of `IndexedTar.load` after the opening `0x01` tag has been
consumed: reads dict element tags until `0x02` (or end of stream: the source's
`while len(dictElementType) != 0` loop then simply returns the partial dict),
reading for each `0x03` a `0x04`-tagged key and either a `0x05` msgpack leaf
or a nested `0x01` dict.  The nested-dict case in the source seeks back one
byte and recursively calls `load`, which re-reads the `0x01` tag and runs this
same loop on a fresh dict — inlined here, since the tag is known to be `0x01`.
All other shapes raise (`none`).  `fuel` decreases at each loop iteration and
on recursion into a nested dict; every iteration consumes at least one byte,
so `bs.length + 1` units are always enough. -/
def loadEntries : Nat → Entries → List Nat → Option (Entries × List Nat)
  | 0, _, _ => none
  | _ + 1, acc, [] => some (acc, [])
  | _ + 1, acc, 2 :: rest => some (acc, rest)
  | fuel + 1, acc, 3 :: rest =>
    match rest with
    | 4 :: r2 =>
      let kl := r2.take 4
      let r3 := r2.drop 4
      let klen := fromBytesLE kl
      let kb := r3.take klen
      let r4 := r3.drop klen
      match utf8Decode kb with
      | none => none
      | some kchars =>
        match r4 with
        | 5 :: r5 =>
          let sl := r5.take 4
          let r6 := r5.drop 4
          let blen := fromBytesLE sl
          let blob := r6.take blen
          let r7 := r6.drop blen
          match fiDecode blob with
          | none => none
          | some fi => loadEntries fuel (pyDictInsert acc ⟨kchars⟩ (.leaf fi)) r7
        | 1 :: r5 =>
          match loadEntries fuel [] r5 with
          | none => none
          | some (sub, r6) => loadEntries fuel (pyDictInsert acc ⟨kchars⟩ (.dir sub)) r6
        | _ => none
    | _ => none
  | _ + 1, _, _ :: _ => none

/-- `IndexedTar.load`: the first tag must open a dict (`0x01`); anything else —
including an empty stream — raises `invalid file format`. -/
def loadTop (bs : List Nat) : Option Entries :=
  match bs with
  | 1 :: rest => (loadEntries (rest.length + 1) [] rest).map Prod.fst
  | _ => none

/-! ## Round trip of the custom codec (claim C1) -/

theorem leBytes_take (w n : Nat) (x : List Nat) : (leBytes w n ++ x).take w = leBytes w n := by
  have h := List.take_left (leBytes w n) x
  rwa [leBytes_length] at h

theorem leBytes_drop (w n : Nat) (x : List Nat) : (leBytes w n ++ x).drop w = x := by
  have h := List.drop_left (leBytes w n) x
  rwa [leBytes_length] at h

/-- The net effect of `load`'s key-value loop on its `result` dict: each pair
is inserted in stream order with Python dict assignment. -/
def insertAll (acc : Entries) : Entries → Entries
  | [] => acc
  | (k, v) :: rest => insertAll (pyDictInsert acc k v) rest

theorem pyDictInsert_of_not_hasKey (acc : Entries) (k : String) (v : PathNode)
    (h : hasKey acc k = false) : pyDictInsert acc k v = acc ++ [(k, v)] := by
  induction acc with
  | nil => rfl
  | cons hd tl ih =>
    obtain ⟨k', v'⟩ := hd
    simp only [hasKey, List.any_cons, Bool.or_eq_false_iff, beq_eq_false_iff_ne,
      ne_eq] at h
    simp only [pyDictInsert, if_neg h.1, List.cons_append]
    congr 1
    exact ih (by simpa [hasKey] using h.2)

theorem insertAll_of_disjoint (es : Entries) : ∀ acc : Entries,
    wfEntries es = true → (∀ k v, (k, v) ∈ es → hasKey acc k = false) →
    insertAll acc es = acc ++ es := by
  induction es with
  | nil => intro acc _ _; simp [insertAll]
  | cons hd tl ih =>
    intro acc hwf hdisj
    obtain ⟨k, v⟩ := hd
    simp only [wfEntries, Bool.and_eq_true, Bool.not_eq_true'] at hwf
    rw [insertAll, pyDictInsert_of_not_hasKey acc k v (hdisj k v (by simp)),
      ih (acc ++ [(k, v)]) hwf.2]
    · simp
    · intro k' v' hmem
      have hk' : hasKey acc k' = false := hdisj k' v' (List.mem_cons_of_mem _ hmem)
      have hkk : k' ≠ k := by
        intro hcon
        subst hcon
        have : hasKey tl k' = true := by
          unfold hasKey
          rw [List.any_eq_true]
          exact ⟨(k', v'), hmem, by simp⟩
        rw [this] at hwf
        exact absurd hwf.1.1 (by simp)
      have hne : (k == k') = false := beq_eq_false_iff_ne.mpr (fun h => hkk h.symm)
      simp only [hasKey, List.any_append, List.any_cons, List.any_nil, Bool.or_false,
        Bool.or_eq_false_iff]
      refine ⟨?_, hne⟩
      simpa [hasKey] using hk'

theorem insertAll_nil (es : Entries) (hwf : wfEntries es = true) : insertAll [] es = es := by
  have h := insertAll_of_disjoint es [] hwf (by intro k v _; rfl)
  simpa using h

theorem loadEntries_step_leaf (fuel : Nat) (acc : Entries) (k : String) (fi : FileInfo)
    (blob tail : List Nat) (hblob : fiEncode fi = some blob)
    (hkl : (utf8Encode k).length < 256 ^ 4) (hbl : blob.length < 256 ^ 4) :
    loadEntries (fuel + 1) acc
      (3 :: 4 :: (leBytes 4 (utf8Encode k).length ++
        (utf8Encode k ++ (5 :: (leBytes 4 blob.length ++ (blob ++ tail)))))) =
      loadEntries fuel (pyDictInsert acc k (.leaf fi)) tail := by
  simp only [loadEntries, leBytes_take, leBytes_drop, fromBytesLE_leBytes _ _ hkl,
    List.take_left, List.drop_left, utf8Decode_encode k, fromBytesLE_leBytes _ _ hbl,
    fiDecode_fiEncode fi blob hblob]

theorem loadEntries_step_dir (fuel : Nat) (acc : Entries) (k : String) (sub : Entries)
    (r5 r6 : List Nat) (hkl : (utf8Encode k).length < 256 ^ 4)
    (hnested : loadEntries fuel [] r5 = some (sub, r6)) :
    loadEntries (fuel + 1) acc
      (3 :: 4 :: (leBytes 4 (utf8Encode k).length ++ (utf8Encode k ++ (1 :: r5)))) =
      loadEntries fuel (pyDictInsert acc k (.dir sub)) r6 := by
  simp only [loadEntries, leBytes_take, leBytes_drop, fromBytesLE_leBytes _ _ hkl,
    List.take_left, List.drop_left, utf8Decode_encode k, hnested]

theorem loadEntries_dumpEntries :
    ∀ (fuel : Nat) (es acc : Entries) (e rest : List Nat),
      wfEntries es = true → dumpEntries es = some e → e.length < fuel →
      loadEntries fuel acc (e ++ 2 :: rest) = some (insertAll acc es, rest) := by
  intro fuel
  induction fuel with
  | zero => intro es acc e rest _ _ h; omega
  | succ fuel ih =>
    intro es acc e rest hwf hdump hlen
    cases es with
    | nil =>
      simp only [dumpEntries, Option.pure_def, Option.some.injEq] at hdump
      subst hdump
      simp [loadEntries, insertAll]
    | cons hd tl =>
      obtain ⟨k, v⟩ := hd
      simp only [wfEntries, Bool.and_eq_true, Bool.not_eq_true'] at hwf
      obtain ⟨⟨hnk, hwfv⟩, hwftl⟩ := hwf
      simp only [dumpEntries, Option.bind_eq_bind, Option.bind_eq_some, Option.pure_def,
        Option.some.injEq] at hdump
      obtain ⟨kl, hkl, ve, hve, re, hre, he⟩ := hdump
      obtain ⟨hkl', hklen⟩ := toBytesLE_eq_some hkl
      subst he hkl'
      cases v with
      | leaf fi =>
        simp only [dumpNode, Option.bind_eq_bind, Option.bind_eq_some, Option.pure_def,
          Option.some.injEq] at hve
        obtain ⟨blob, hblob, len, hlen4, hve'⟩ := hve
        obtain ⟨hlen4', hblen⟩ := toBytesLE_eq_some hlen4
        subst hve' hlen4'
        have hre' : re.length < fuel := by
          simp only [List.length_cons, List.length_append, leBytes_length] at hlen
          omega
        simp only [List.cons_append, List.append_assoc, List.nil_append]
        rw [loadEntries_step_leaf fuel acc k fi blob (re ++ 2 :: rest) hblob hklen hblen]
        rw [ih tl (pyDictInsert acc k (.leaf fi)) re rest hwftl hre hre']
        rfl
      | dir sub =>
        simp only [dumpNode, Option.bind_eq_bind, Option.bind_eq_some, Option.pure_def,
          Option.some.injEq] at hve
        obtain ⟨inner, hinner, hve'⟩ := hve
        subst hve'
        have hwfsub : wfEntries sub = true := by simpa [wfNode] using hwfv
        have hinner' : inner.length < fuel := by
          simp only [List.length_cons, List.length_append, leBytes_length] at hlen
          omega
        have hre' : re.length < fuel := by
          simp only [List.length_cons, List.length_append, leBytes_length] at hlen
          omega
        have hnested : loadEntries fuel [] (inner ++ 2 :: (re ++ 2 :: rest)) =
            some (sub, re ++ 2 :: rest) := by
          rw [ih sub [] inner (re ++ 2 :: rest) hwfsub hinner hinner',
            insertAll_nil sub hwfsub]
        simp only [List.cons_append, List.append_assoc, List.nil_append]
        rw [loadEntries_step_dir fuel acc k sub (inner ++ 2 :: (re ++ 2 :: rest))
          (re ++ 2 :: rest) hklen hnested]
        rw [ih tl (pyDictInsert acc k (.dir sub)) re rest hwftl hre hre']
        rfl

/-- **C1**: custom index codec round-trip.  For every path tree (nested
directories with `FileInfo` leaves, keys unique as in any Python dict),
decoding the tag-framed binary serialization produced by `IndexedTar.dump`
with `IndexedTar.load` yields the original tree: `load(dump(tree)) == tree`. -/
theorem custom_codec_roundtrip (es : Entries) (bs : List Nat)
    (hwf : wfEntries es = true) (hdump : dumpNode (.dir es) = some bs) :
    loadTop bs = some es := by
  simp only [dumpNode, Option.bind_eq_bind, Option.bind_eq_some, Option.pure_def,
    Option.some.injEq] at hdump
  obtain ⟨inner, hinner, hbs⟩ := hdump
  subst hbs
  have hshape : (1 :: inner) ++ [2] = 1 :: (inner ++ 2 :: ([] : List Nat)) := by simp
  rw [show ((1 :: inner ++ [2] : List Nat)) = 1 :: (inner ++ 2 :: ([] : List Nat)) from by simp]
  simp only [loadTop]
  rw [loadEntries_dumpEntries ((inner ++ 2 :: ([] : List Nat)).length + 1) es [] inner []
    hwf hinner (by simp only [List.length_append, List.length_cons, List.length_nil]; omega)]
  simp [insertAll_nil es hwf]

def c1TestFi : FileInfo :=
  { offset := 512, size := 4, mtime := 5, mode := 420, type := 48,
    linkname := "", uid := 1000, gid := 1000, istar := false }

def c1TestTree : Entries :=
  [("a.txt", .leaf c1TestFi), ("d", .dir [("b.txt", .leaf c1TestFi)])]

def c1TestBytes : List Nat := (dumpNode (.dir c1TestTree)).getD []

theorem custom_codec_roundtrip_witness : loadTop c1TestBytes = some c1TestTree :=
  custom_codec_roundtrip c1TestTree c1TestBytes (by decide) (by decide)

/-! ## Path lookup (`IndexedTar.getFileInfo`) and the FUSE adapter (`TarMount`)

`getFileInfo` walks `os.path.normpath(path).split(os.sep)`; the path
normalization and split are done by the external `os.path` library, so the
model takes the resulting component list directly (empty components are still
skipped by the loop itself, mirroring `if not name: continue`). -/

/-- The Python errors the adapter can produce: `fuse.FuseOSError(errno)`, and
the untyped `TypeError` / `AttributeError` / `AssertionError` / `Exception`
that escape uncaught. -/
inductive PyErr where
  | fuseError (errno : Nat)
  | typeError
  | attributeError
  | assertionError
  | exceptionError
deriving DecidableEq, Repr

deriving instance DecidableEq for Except

def EROFS : Nat := 30
def ENOENT : Nat := 2

/-- The descent loop of `getFileInfo`: `for name in ...: if not name: continue;
if not name in p: return; p = p[name]`.  When `p` is a dict, `name in p` tests
keys.  When `p` is a `FileInfo` named tuple, `name in p` is *tuple value
membership*: the only `str` field is `linkname`, so it is `True` exactly when
`name == linkname`; indexing the tuple with the string (`p[name]`) then raises
`TypeError`.  Otherwise the membership test is `False` and the function
returns `None`. -/
def descendPath : PathNode → List String → Except PyErr (Option PathNode)
  | p, [] => .ok (some p)
  | p, n :: rest =>
    if n = "" then descendPath p rest
    else match p with
      | .dir es =>
        match lookupKey es n with
        | some ch => descendPath ch rest
        | none => .ok none
      | .leaf fi => if fi.linkname = n then .error .typeError else .ok none

/-- `tarfile.DIRTYPE` is the byte `b'5'`. -/
def DIRTYPE : Nat := 53

/-- The record synthesized by `getFileInfo` for a directory without a `"."`
self-entry. -/
def synthesizedDirRecord : FileInfo :=
  { offset := 0, size := 1, mtime := 0, mode := 0o555 ||| 0o40000, type := DIRTYPE,
    linkname := "", uid := 0, gid := 0, istar := false }

/-- `IndexedTar.getFileInfo(path, listDir)`.  `repackDeserializedNamedTuple`
is the identity on this typed tree (it only repairs values deserialized by
other backends), so it is omitted.  `.ok none` is Python's `None` return. -/
def getFileInfoM (root : Entries) (names : List String) (listDir : Bool) :
    Except PyErr (Option PathNode) :=
  match descendPath (.dir root) names with
  | .error e => .error e
  | .ok none => .ok none
  | .ok (some p) =>
    if listDir then .ok (some p)
    else match p with
      | .leaf fi => .ok (some (.leaf fi))
      | .dir es =>
        match lookupKey es "." with
        | some q => .ok (some q)
        | none => .ok (some (.leaf synthesizedDirRecord))

/-- `IndexedTar.isDir`. -/
def isDirM (root : Entries) (names : List String) : Except PyErr Bool :=
  match getFileInfoM root names true with
  | .error e => .error e
  | .ok (some (.dir _)) => .ok true
  | .ok _ => .ok false

/-- `IndexedTar.exists`: `self.isDir(path) or isinstance(self.getFileInfo(path), FileInfo)`. -/
def existsM (root : Entries) (names : List String) : Except PyErr Bool :=
  match isDirM root names with
  | .error e => .error e
  | .ok true => .ok true
  | .ok false =>
    match getFileInfoM root names false with
    | .error e => .error e
    | .ok (some (.leaf _)) => .ok true
    | .ok _ => .ok false

/-- The stat dict built by `TarMount.getattr`. -/
structure StatDict where
  st_size : Nat
  st_mtime : Int
  st_mode : Nat
  st_uid : Nat
  st_gid : Nat
  st_nlink : Nat
deriving DecidableEq, Repr

/-- Python `int()` on a rational: truncation toward zero. -/
def pyInt (q : ℚ) : Int := Int.tdiv q.num q.den

/-- `statDict['st_mode'] &= ~(stat.S_IWUSR | stat.S_IWGRP | stat.S_IWOTH)`:
clear the write bits `0o222` (on a non-negative Python int, `m & ~0o222`
clears exactly the bits of the mask). -/
def clearWriteBits (m : Nat) : Nat := m ^^^ (m &&& 0o222)

/-- `TarMount.getattr`: look up the path; everything that is not a `FileInfo`
(a `None` for a missing path, or a dict) raises `FuseOSError(errno.EROFS)`;
otherwise project the record into a read-only stat dict. -/
def getattrM (root : Entries) (names : List String) : Except PyErr StatDict :=
  match getFileInfoM root names false with
  | .error e => .error e
  | .ok (some (.leaf fi)) =>
    .ok { st_size := fi.size, st_mtime := pyInt fi.mtime,
          st_mode := clearWriteBits fi.mode, st_uid := fi.uid, st_gid := fi.gid,
          st_nlink := 2 }
  | .ok _ => .error (.fuseError EROFS)

/-- `TarMount.readdir`: yields `'.'`, `'..'`, then
`self.indexedTar.getFileInfo( path, listDir = True ).keys()`.  When the lookup
returns `None` (absent path) or a `FileInfo` (a file), calling `.keys()` on it
raises `AttributeError` — not `FuseOSError(errno.ENOENT)`. -/
def readdirM (root : Entries) (names : List String) : Except PyErr (List String) :=
  match getFileInfoM root names true with
  | .error e => .error e
  | .ok (some (.dir es)) => .ok ("." :: ".." :: es.map Prod.fst)
  | .ok _ => .error .attributeError

/-- `pathname.startswith("/")`. -/
def startsWithSlash (s : String) : Bool :=
  match s.data with
  | [] => false
  | c :: _ => c = '/'

/-- `TarMount.readlink`: look up the record and return its `linkname` —
except that for a linkname starting with `'/'` the source evaluates
`os.path.relpath( pathname, self.root )`, and `TarMount` has no attribute
`root`, so the attribute access raises `AttributeError`. -/
def readlinkM (root : Entries) (names : List String) : Except PyErr String :=
  match getFileInfoM root names false with
  | .error e => .error e
  | .ok (some (.leaf fi)) =>
    if startsWithSlash fi.linkname then .error .attributeError
    else .ok fi.linkname
  | .ok _ => .error (.fuseError EROFS)

/-! Spec-side predicates used to state the claims (these follow the spec's
notion of a path being "present in the PathTree", not any source function). -/

/-- A component list resolves to a node of the tree: descend through
directories only, skipping empty components. -/
def presentB : PathNode → List String → Bool
  | _, [] => true
  | p, n :: rest =>
    if n = "" then presentB p rest
    else match p with
      | .leaf _ => false
      | .dir es =>
        match lookupKey es n with
        | some ch => presentB ch rest
        | none => false

/-- The descent never walks into a leaf whose `linkname` equals the next
non-empty component (the one case where `getFileInfo` raises `TypeError`
instead of returning `None`). -/
def descendSafe : PathNode → List String → Bool
  | _, [] => true
  | p, n :: rest =>
    if n = "" then descendSafe p rest
    else match p with
      | .leaf fi => !(fi.linkname == n)
      | .dir es =>
        match lookupKey es n with
        | some ch => descendSafe ch rest
        | none => true

mutual
/-- Every `"."` key in the tree maps to a `FileInfo` leaf (true of every tree
the scanner builds, where `"."` entries come from `setDirInfo` / the mount
root record). -/
def dotOk : PathNode → Bool
  | .leaf _ => true
  | .dir es => dotOkEntries es
def dotOkEntries : Entries → Bool
  | [] => true
  | (k, v) :: rest =>
    (!(k == ".") || (match v with | .leaf _ => true | .dir _ => false)) &&
      dotOk v && dotOkEntries rest
end

theorem descendPath_error_typeError (ns : List String) :
    ∀ (p : PathNode) (e : PyErr), descendPath p ns = .error e → e = .typeError := by
  induction ns with
  | nil => intro p e h; simp [descendPath] at h
  | cons n rest ih =>
    intro p e h
    by_cases hn : n = ""
    · simp only [descendPath, if_pos hn] at h
      exact ih p e h
    · cases p with
      | dir es =>
        cases hlk : lookupKey es n with
        | some ch =>
          simp only [descendPath, if_neg hn, hlk] at h
          exact ih ch e h
        | none =>
          simp only [descendPath, if_neg hn, hlk] at h
          exact Except.noConfusion h
      | leaf fi =>
        by_cases hl : fi.linkname = n
        · simp only [descendPath, if_neg hn, if_pos hl, Except.error.injEq] at h
          exact h.symm
        · simp only [descendPath, if_neg hn, if_neg hl] at h
          exact Except.noConfusion h

theorem getFileInfoM_error_typeError (root : Entries) (ns : List String) (ld : Bool)
    (e : PyErr) (h : getFileInfoM root ns ld = .error e) : e = .typeError := by
  unfold getFileInfoM at h
  cases hd : descendPath (.dir root) ns with
  | error e' =>
    rw [hd] at h
    cases h
    exact descendPath_error_typeError ns _ _ hd
  | ok r =>
    rw [hd] at h
    cases r with
    | none => simp at h
    | some p =>
      cases ld with
      | true => simp at h
      | false =>
        cases p with
        | leaf fi => simp at h
        | dir es =>
          cases hlk : lookupKey es "." with
          | some q => simp [hlk] at h
          | none => simp [hlk] at h

theorem dotOkEntries_lookup (es : Entries) (n : String) (ch : PathNode)
    (hlk : lookupKey es n = some ch) (hdot : dotOkEntries es = true) :
    dotOk ch = true ∧ (n = "." → ∃ fi, ch = .leaf fi) := by
  induction es with
  | nil => simp [lookupKey] at hlk
  | cons hd tl ih =>
    obtain ⟨k, v⟩ := hd
    simp only [dotOkEntries, Bool.and_eq_true] at hdot
    obtain ⟨⟨hk, hv⟩, htl⟩ := hdot
    unfold lookupKey at hlk
    by_cases hkn : k = n
    · rw [if_pos hkn] at hlk
      cases hlk
      refine ⟨hv, fun hdotn => ?_⟩
      subst hdotn hkn
      cases ch with
      | leaf fi => exact ⟨fi, rfl⟩
      | dir _ => simp at hk
    · rw [if_neg hkn] at hlk
      exact ih hlk htl

theorem descendPath_present (ns : List String) :
    ∀ p : PathNode, presentB p ns = true → dotOk p = true →
      ∃ q, descendPath p ns = .ok (some q) ∧ dotOk q = true := by
  induction ns with
  | nil => intro p _ hdot; exact ⟨p, rfl, hdot⟩
  | cons n rest ih =>
    intro p hp hdot
    by_cases hn : n = ""
    · simp only [presentB, if_pos hn] at hp
      simp only [descendPath, if_pos hn]
      exact ih p hp hdot
    · cases p with
      | leaf fi => simp [presentB, hn] at hp
      | dir es =>
        cases hlk : lookupKey es n with
        | some ch =>
          simp only [presentB, if_neg hn, hlk] at hp
          simp only [descendPath, if_neg hn, hlk]
          obtain ⟨hch, -⟩ := dotOkEntries_lookup es n ch hlk (by simpa [dotOk] using hdot)
          exact ih ch hp hch
        | none => simp [presentB, hn, hlk] at hp

theorem descendPath_absent (ns : List String) :
    ∀ p : PathNode, presentB p ns = false → descendSafe p ns = true →
      descendPath p ns = .ok none := by
  induction ns with
  | nil => intro p hp _; simp [presentB] at hp
  | cons n rest ih =>
    intro p hp hsafe
    by_cases hn : n = ""
    · simp only [presentB, if_pos hn] at hp
      simp only [descendSafe, if_pos hn] at hsafe
      simp only [descendPath, if_pos hn]
      exact ih p hp hsafe
    · cases p with
      | leaf fi =>
        simp only [descendSafe, if_neg hn] at hsafe
        simp only [descendPath, if_neg hn]
        rw [if_neg (by simpa using hsafe)]
      | dir es =>
        cases hlk : lookupKey es n with
        | some ch =>
          simp only [presentB, if_neg hn, hlk] at hp
          simp only [descendSafe, if_neg hn, hlk] at hsafe
          simp only [descendPath, if_neg hn, hlk]
          exact ih ch hp hsafe
        | none => simp only [descendPath, if_neg hn, hlk]

theorem getFileInfoM_present_leaf (root : Entries) (ns : List String)
    (hdot : dotOkEntries root = true) (hp : presentB (.dir root) ns = true) :
    ∃ fi, getFileInfoM root ns false = .ok (some (.leaf fi)) := by
  obtain ⟨q, hq, hqdot⟩ := descendPath_present ns (.dir root) hp (by simpa [dotOk] using hdot)
  cases q with
  | leaf fi =>
    refine ⟨fi, ?_⟩
    simp [getFileInfoM, hq]
  | dir es =>
    cases hlk : lookupKey es "." with
    | some v =>
      obtain ⟨-, hdotv⟩ := dotOkEntries_lookup es "." v hlk (by simpa [dotOk] using hqdot)
      obtain ⟨fi, rfl⟩ := hdotv rfl
      refine ⟨fi, ?_⟩
      simp [getFileInfoM, hq, hlk]
    | none =>
      refine ⟨synthesizedDirRecord, ?_⟩
      simp [getFileInfoM, hq, hlk]

theorem clearWriteBits_masked (m : Nat) : clearWriteBits m &&& 0o222 = 0 := by
  apply Nat.eq_of_testBit_eq
  intro i
  simp only [clearWriteBits, Nat.testBit_land, Nat.testBit_xor, Nat.zero_testBit]
  cases h1 : m.testBit i <;> cases h2 : (0o222 : Nat).testBit i <;> simp [h1, h2]

/-- **C4**: read-only stat projection.  For every path present in the path
tree (with the spec's invariant that `"."` self-entries are records), `getattr`
returns a stat dict whose write-permission bits are all cleared
(`mode & 0o222 == 0`), with `st_nlink = 2`, `st_mtime` the record's `mtime`
truncated to an integer, and `st_size` / `st_uid` / `st_gid` copied from the
record returned by the lookup. -/
theorem getattr_readonly_projection (root : Entries) (ns : List String)
    (hdot : dotOkEntries root = true) (hp : presentB (.dir root) ns = true) :
    ∃ fi, getFileInfoM root ns false = .ok (some (.leaf fi)) ∧
      getattrM root ns = .ok { st_size := fi.size, st_mtime := pyInt fi.mtime,
                               st_mode := clearWriteBits fi.mode, st_uid := fi.uid,
                               st_gid := fi.gid, st_nlink := 2 } ∧
      clearWriteBits fi.mode &&& 0o222 = 0 := by
  obtain ⟨fi, hfi⟩ := getFileInfoM_present_leaf root ns hdot hp
  exact ⟨fi, hfi, by simp [getattrM, hfi], clearWriteBits_masked fi.mode⟩

def c4Fi : FileInfo :=
  { offset := 1024, size := 7, mtime := 3, mode := 0o755, type := 48,
    linkname := "", uid := 1, gid := 2, istar := false }

def c4Tree : Entries := [("a.txt", .leaf c4Fi), ("d", .dir [("c.txt", .leaf c4Fi)])]

theorem getattr_readonly_projection_witness :
    getattrM c4Tree ["d", "c.txt"] =
      .ok { st_size := 7, st_mtime := 3, st_mode := 0o555, st_uid := 1, st_gid := 2,
            st_nlink := (2 : Nat) } := by
  obtain ⟨fi, hfi, hstat, -⟩ :=
    getattr_readonly_projection c4Tree ["d", "c.txt"] (by decide) (by decide)
  have hval : getFileInfoM c4Tree ["d", "c.txt"] false = .ok (some (.leaf c4Fi)) := by decide
  obtain h1 := hval.symm.trans hfi
  injection h1 with h2
  injection h2 with h3
  injection h3 with h4
  subst h4
  exact hstat.trans (by decide)

/-- **C5** (counterexample): `readdir` on an absent path does *not* fail with
`FuseOSError(errno.ENOENT)` — the source calls `.keys()` on the `None`
returned by `getFileInfo`, raising `AttributeError`. -/
theorem readdir_enoent_counterexample :
    readdirM ([] : Entries) ["foo"] = .error .attributeError ∧
    readdirM ([] : Entries) ["foo"] ≠ .error (.fuseError ENOENT) := by decide

/-- **C5** (amended): for a path that resolves to a directory, `readdir`
yields `'.'`, `'..'`, then every key of the directory's dict in insertion
order (these keys include the `"."` self-entry again when the directory has
one); for a path that is absent or resolves to a file it raises
`AttributeError` (from `.keys()` on a non-dict); it never raises
`FuseOSError(errno.ENOENT)`. -/
theorem readdir_behaviour (root : Entries) (ns : List String) :
    (∀ ds, getFileInfoM root ns true = .ok (some (.dir ds)) →
      readdirM root ns = .ok ("." :: ".." :: ds.map Prod.fst)) ∧
    (∀ r, getFileInfoM root ns true = .ok r → (∀ ds, r ≠ some (.dir ds)) →
      readdirM root ns = .error .attributeError) ∧
    readdirM root ns ≠ .error (.fuseError ENOENT) := by
  refine ⟨?_, ?_, ?_⟩
  · intro ds h
    simp [readdirM, h]
  · intro r h hnot
    cases r with
    | none => simp [readdirM, h]
    | some p =>
      cases p with
      | leaf fi => simp [readdirM, h]
      | dir ds => exact absurd rfl (hnot ds)
  · intro hcon
    cases hg : getFileInfoM root ns true with
    | error e =>
      have he := getFileInfoM_error_typeError root ns true e hg
      subst he
      simp [readdirM, hg] at hcon
    | ok r =>
      cases r with
      | none => simp [readdirM, hg] at hcon
      | some p =>
        cases p with
        | leaf fi => simp [readdirM, hg] at hcon
        | dir ds => simp [readdirM, hg] at hcon

theorem readdir_behaviour_witness :
    readdirM c4Tree ["d"] = .ok [".", "..", "c.txt"] := by
  simpa using (readdir_behaviour c4Tree ["d"]).1 [("c.txt", .leaf c4Fi)] (by decide)

def c8Fi : FileInfo :=
  { offset := 0, size := 0, mtime := 0, mode := 0o120777, type := 50,
    linkname := "/abs", uid := 0, gid := 0, istar := false }

def c8Tree : Entries := [("lnk", .leaf c8Fi)]

/-- **C8** (counterexample): for a record whose stored `linkname` is absolute
(`"/abs"`), `readlink` does *not* return the stored string — the source
branches into `os.path.relpath( pathname, self.root )` and `TarMount` has no
attribute `root`, so the call raises `AttributeError`. -/
theorem readlink_absolute_counterexample :
    getFileInfoM c8Tree ["lnk"] false = .ok (some (.leaf c8Fi)) ∧
    readlinkM c8Tree ["lnk"] = .error .attributeError ∧
    readlinkM c8Tree ["lnk"] ≠ .ok "/abs" := by decide

/-- **C8** (amended): for every path whose record exists, `readlink` returns
exactly the stored `linkname` when it does not start with `'/'`; when the
stored `linkname` is absolute the call instead raises `AttributeError`
(undefined `self.root`). -/
theorem readlink_stored_linkname (root : Entries) (ns : List String) (fi : FileInfo)
    (h : getFileInfoM root ns false = .ok (some (.leaf fi))) :
    (startsWithSlash fi.linkname = false → readlinkM root ns = .ok fi.linkname) ∧
    (startsWithSlash fi.linkname = true → readlinkM root ns = .error .attributeError) := by
  constructor <;> intro hs <;> simp [readlinkM, h, hs]

def c8RelFi : FileInfo :=
  { offset := 0, size := 0, mtime := 0, mode := 0o120777, type := 50,
    linkname := "target", uid := 0, gid := 0, istar := false }

def c8RelTree : Entries := [("lnk", .leaf c8RelFi)]

theorem readlink_stored_linkname_witness :
    readlinkM c8RelTree ["lnk"] = .ok "target" :=
  (readlink_stored_linkname c8RelTree ["lnk"] c8RelFi (by decide)).1 (by decide)

def c9LinkFi : FileInfo :=
  { offset := 0, size := 0, mtime := 0, mode := 0o120777, type := 50,
    linkname := "x", uid := 0, gid := 0, istar := false }

def c9Tree : Entries := [("a", .leaf c9LinkFi)]

/-- **C9** (counterexample): the absent path `/a/x`, where `a` is a symlink
leaf whose `linkname` is `"x"`, makes `getattr` raise `TypeError` (tuple
membership `name in p` succeeds on the `linkname` field and `p[name]` then
indexes a tuple with a string) — not `FuseOSError(errno.EROFS)`. -/
theorem getattr_missing_erofs_counterexample :
    presentB (.dir c9Tree) ["a", "x"] = false ∧
    getattrM c9Tree ["a", "x"] = .error .typeError ∧
    getattrM c9Tree ["a", "x"] ≠ .error (.fuseError EROFS) := by decide

/-- **C9** (amended): for every path not present in the path tree whose
descent does not step through a leaf whose `linkname` equals the next
component, `getattr` raises `FuseOSError(errno.EROFS)` (not `ENOENT`); for
every present path (with the spec's `"."`-self-entry invariant) it raises no
error. -/
theorem getattr_missing_amended (root : Entries) (ns : List String)
    (hdot : dotOkEntries root = true) :
    (descendSafe (.dir root) ns = true → presentB (.dir root) ns = false →
      getattrM root ns = .error (.fuseError EROFS)) ∧
    (presentB (.dir root) ns = true → ∃ sd, getattrM root ns = .ok sd) := by
  constructor
  · intro hsafe hp
    have hd := descendPath_absent ns (.dir root) hp hsafe
    simp [getattrM, getFileInfoM, hd]
  · intro hp
    obtain ⟨fi, hfi⟩ := getFileInfoM_present_leaf root ns hdot hp
    refine ⟨{ st_size := fi.size, st_mtime := pyInt fi.mtime,
              st_mode := clearWriteBits fi.mode, st_uid := fi.uid, st_gid := fi.gid,
              st_nlink := 2 }, ?_⟩
    simp [getattrM, hfi]

theorem getattr_missing_amended_witness :
    getattrM c9Tree ["zzz"] = .error (.fuseError EROFS) :=
  (getattr_missing_amended c9Tree ["zzz"] (by decide)).1 (by decide) (by decide)

/-! ## Mode computation during the scan (`IndexedTar.createIndex`, claim C7)

The member type comes from Python's `tarfile` (an external library): the
single-byte type field, with `isdir()`/`isfile()`/`issym()`/`ischr()`/
`isfifo()` testing it exactly as below (`isfile` is true for the regular-file
types `REGTYPE`, `AREGTYPE`, `CONTTYPE`, `GNUTYPE_SPARSE`). -/

inductive TarType where
  | regtype    -- b'0'
  | aregtype   -- b'\0'
  | lnktype    -- b'1' (hardlink)
  | symtype    -- b'2'
  | chrtype    -- b'3'
  | blktype    -- b'4'
  | dirtype    -- b'5'
  | fifotype   -- b'6'
  | conttype   -- b'7'
  | gnuSparse  -- b'S'
deriving DecidableEq, Repr

def TarType.isdir : TarType → Bool
  | .dirtype => true
  | _ => false

def TarType.isfile : TarType → Bool
  | .regtype | .aregtype | .conttype | .gnuSparse => true
  | _ => false

def TarType.issym : TarType → Bool
  | .symtype => true
  | _ => false

def TarType.ischr : TarType → Bool
  | .chrtype => true
  | _ => false

def TarType.isfifo : TarType → Bool
  | .fifotype => true
  | _ => false

/-- The mode computation of `createIndex` (lines 334–339): start from the
scanner's permission bits and OR in a filetype bit per the five `if`s.  Note
the source has no `isblk()` case. -/
def scanMode (perm : Nat) (t : TarType) : Nat :=
  let m := perm
  let m := if t.isdir then m ||| 0o040000 else m
  let m := if t.isfile then m ||| 0o100000 else m
  let m := if t.issym then m ||| 0o120000 else m
  let m := if t.ischr then m ||| 0o020000 else m
  let m := if t.isfifo then m ||| 0o010000 else m
  m

/-- **C7** (counterexample): a block-device member (`BLKTYPE`) with permission
bits `0o644` is stored with mode `0o644` — the block-device filetype bit
`S_IFBLK = 0o060000` is *not* OR-ed in, because the scan has no `isblk()`
branch. -/
theorem scan_mode_block_counterexample :
    scanMode 0o644 .blktype = 0o644 ∧ (0o644 : Nat) ≠ 0o644 ||| 0o060000 := by decide

/-- **C7** (amended): the stored mode equals the scanner's permission bits
OR-ed with the corresponding filetype bit for regular, directory, symlink,
char and fifo members; block-device members (and hardlinks) get no filetype
bit at all. -/
theorem scan_mode_filetype_bits (perm : Nat) :
    scanMode perm .regtype = perm ||| 0o100000 ∧
    scanMode perm .dirtype = perm ||| 0o040000 ∧
    scanMode perm .symtype = perm ||| 0o120000 ∧
    scanMode perm .chrtype = perm ||| 0o020000 ∧
    scanMode perm .fifotype = perm ||| 0o010000 ∧
    scanMode perm .blktype = perm ∧
    scanMode perm .lnktype = perm := by
  refine ⟨?_, ?_, ?_, ?_, ?_, ?_, ?_⟩ <;>
    simp [scanMode, TarType.isdir, TarType.isfile, TarType.issym, TarType.ischr,
      TarType.isfifo]

/-! ## Tree insertion (`setFileInfo`, `setDirInfo`) and the name-clash branch
of `createIndex` (claim C6) -/

/-- The shared descent of `setFileInfo` / `setDirInfo`: walk
`pathHierarchy[:-1]` with `p = p.setdefault(name, {})` (asserting
`isinstance(p, dict)` before each non-empty component), then
`p.update({ last : node })`.  When the descent runs into an existing
`FileInfo` value, the next non-empty component fails the `assert`
(`AssertionError`); if only empty components remain, the final
`p.update(...)` on the named tuple raises `AttributeError`. -/
def setValueInDict : Entries → List String → String → PathNode → Except PyErr Entries
  | es, [], last, node => .ok (pyDictInsert es last node)
  | es, n :: rest, last, node =>
    if n = "" then setValueInDict es rest last node
    else match lookupKey es n with
      | none =>
        match setValueInDict [] rest last node with
        | .error e => .error e
        | .ok sub => .ok (pyDictInsert es n (.dir sub))
      | some (.dir d) =>
        match setValueInDict d rest last node with
        | .error e => .error e
        | .ok sub => .ok (pyDictInsert es n (.dir sub))
      | some (.leaf _) =>
        if rest.all (· = "") then .error .attributeError else .error .assertionError

/-- `IndexedTar.setFileInfo(path, fileInfo)` (two parameters besides `self`).
`os.path.normpath(path).split(os.sep)` is external; the component list is
taken directly.  `if len(pathHierarchy) == 0: return` is the `[]` guard. -/
def setFileInfoM (root : Entries) (names : List String) (fi : FileInfo) :
    Except PyErr Entries :=
  match names with
  | [] => .ok root
  | _ => setValueInDict root names.dropLast (names.getLastD "") (.leaf fi)

/-- `IndexedTar.setDirInfo(path, dirInfo, dirContents)`: insert the contents
dict at the path and then store the directory's own record under its `"."`
key (the source's `p[pathHierarchy[-1]].update({ '.' : dirInfo })` mutates
the just-inserted dict). -/
def setDirInfoM (root : Entries) (names : List String) (dirInfo : FileInfo)
    (contents : Entries) : Except PyErr Entries :=
  match names with
  | [] => .ok root
  | _ => setValueInDict root names.dropLast (names.getLastD "")
      (.dir (pyDictInsert contents "." (.leaf dirInfo)))

/-- The `elif path != '/':` branch of `IndexedTar.createIndex` (lines
384–400) for a scanned entry that is not a recursive TAR mount.  When the
path already exists, line 387 *rebinds* `fileInfo` to the existing record; if
that record has `istar` set, line 392 executes
`self.setFileInfo( path + ".tar", fileInfo, self.getFileInfo( path, listDir = True ) )`
— a call with three positional arguments to a method defined with two
(besides `self`), so the call itself raises `TypeError` and the relocation
described by the code's own comment never happens.  Otherwise the (rebound!)
record is inserted via `setDirInfo`/`setFileInfo`. -/
def insertScannedEntry (root : Entries) (names : List String) (scannedFi : FileInfo)
    (entryIsDir : Bool) : Except PyErr Entries :=
  match existsM root names with
  | .error e => .error e
  | .ok ex =>
    if ex then
      match getFileInfoM root names false with
      | .error e => .error e
      | .ok none => .error .attributeError
      | .ok (some (.dir _)) => .error .attributeError
      | .ok (some (.leaf old)) =>
        if old.istar then
          .error .typeError
        else
          if entryIsDir then setDirInfoM root names old []
          else setFileInfoM root names old
    else
      if entryIsDir then setDirInfoM root names scannedFi []
      else setFileInfoM root names scannedFi

def c6IstarFi : FileInfo :=
  { offset := 512, size := 0, mtime := 0, mode := 0o40555, type := 48,
    linkname := "", uid := 0, gid := 0, istar := true }

def c6NewDirFi : FileInfo :=
  { offset := 2048, size := 0, mtime := 4, mode := 0o40755, type := 53,
    linkname := "", uid := 0, gid := 0, istar := false }

/-- The tree state after `foo.tar` was recursively mounted at `/foo`
(`setDirInfo` stored the `istar` record under the mount's `"."` key). -/
def c6Tree : Entries := [("foo", .dir [(".", .leaf c6IstarFi)])]

/-- **C6**: when a scanned directory entry `foo` clashes with an existing
`istar` mount at `/foo`, the build does *not* relocate the mount to
`/foo.tar` — the relocation call `setFileInfo( path + ".tar", fileInfo,
getFileInfo( path, listDir = True ) )` passes three arguments to a
two-parameter method and raises `TypeError`, crashing the index build. -/
theorem name_clash_rename_typeerror :
    insertScannedEntry c6Tree ["foo"] c6NewDirFi true = .error .typeError := by decide

/-! ## The Joined File (`JoinedFileMount.JoinedFile`)

Underlying part files are modelled by their byte contents; the one open
`fileobj` is modelled by the index of the file it reads from (`fileIdx`) and
its position (`filePos`).  `self.currentFile` is initialized to `None` in
`__init__` and — notably — never assigned again, so `seek`'s
`if i != self.currentFile` test is always true and the file is always
reopened; the model keeps the field and the comparison. -/

/-- `self.cumsizes`: starts as `[0]` and appends the running total for every
kept part size (`cumsizesFrom a l` is the list of partial sums of `l` shifted
by `a`). -/
def cumsizesFrom (a : Nat) : List Nat → List Nat
  | [] => [a]
  | s :: rest => a :: cumsizesFrom (a + s) rest

def cumsizes (sizes : List Nat) : List Nat := cumsizesFrom 0 sizes

/-- Modelled from the library documentation: Python `bisect.bisect_left(l, v)`
on a sorted list returns the leftmost insertion point for `v`, which is the
number of elements smaller than `v`. -/
def bisectLeft (l : List Nat) (v : Nat) : Nat := l.countP (fun x => x < v)

/-- `JoinedFile._findStencil(offset)`:
`bisect.bisect_left( self.cumsizes, offset + 1 ) - 1`. -/
def findStencil (cum : List Nat) (offset : Nat) : Nat := bisectLeft cum (offset + 1) - 1

inductive Whence where
  | seekSet
  | seekCur
  | seekEnd
deriving DecidableEq, Repr

structure JFile where
  parts : List (List Nat)
  offset : Int
  currentFile : Option Nat
  fileIdx : Nat
  filePos : Nat
deriving DecidableEq, Repr

/-- `self.sizes` (sizes of the kept parts). -/
def JFile.sizes (s : JFile) : List Nat := s.parts.map List.length

def JFile.cum (s : JFile) : List Nat := cumsizes s.sizes

/-- `self.cumsizes[-1]`. -/
def JFile.total (s : JFile) : Nat := s.cum.getLastD 0

/-- The new logical offset computed at the top of `seek` (for an
unrecognized whence the source leaves `self.offset` unchanged). -/
def seekNewOffset (s : JFile) (off : Int) (w : Whence) : Int :=
  match w with
  | .seekCur => s.offset + off
  | .seekEnd => (s.total : Int) + off
  | .seekSet => off

/-- `JoinedFile.seek`: update `self.offset` *first*, then raise on a negative
result; return early at or past the end (leaving the underlying file alone);
otherwise locate the owning part, (always, since `currentFile` is never
updated) reopen it, and seek inside it. -/
def seekJ (s : JFile) (off : Int) (w : Whence) : Except PyErr Int × JFile :=
  let newOff := seekNewOffset s off w
  let s1 : JFile := { s with offset := newOff }
  if newOff < 0 then (.error .exceptionError, s1)
  else if (s1.total : Int) ≤ newOff then (.ok newOff, s1)
  else
    let i := findStencil s1.cum newOff.toNat
    let inside := newOff.toNat - s1.cum.getD i 0
    let s2 := if s1.currentFile = some i
              then { s1 with filePos := inside }
              else { s1 with fileIdx := i, filePos := inside }
    (.ok newOff, s2)

/-- `JoinedFile.tell`. -/
def tellJ (s : JFile) : Int := s.offset

/-- `self.fileobj.read(k)`: read `k` bytes from the open part at its current
position (for negative `k` a Python file object reads to the end). -/
def fileReadJ (s : JFile) (k : Int) : List Nat × JFile :=
  let content := s.parts.getD s.fileIdx []
  let avail := content.drop s.filePos
  let tmp := if k < 0 then avail else avail.take k.toNat
  (tmp, { s with filePos := s.filePos + tmp.length })

/-- The while-loop of `JoinedFile.read` ("leapfrog": an iteration either
opens the next file, or reads data and advances `self.offset`).  Each
iteration either decreases `size` by at least one or increases `i`, so
`size.toNat + number-of-parts + 1` units of fuel always suffice; the fuel
guard only matters for states the source itself could not reach. -/
def readLoop : Nat → Int → Nat → JFile → List Nat → List Nat × JFile
  | 0, _, _, s, acc => (acc, s)
  | fuel + 1, size, i, s, acc =>
    if 0 < size ∧ i < s.sizes.length then
      let readable : Int :=
        min size ((s.sizes.getD i 0 : Int) - (s.offset - (s.cum.getD i 0 : Int)))
      if readable = 0 then
        let i' := i + 1
        if s.parts.length ≤ i' then (acc, s)
        else readLoop fuel size i' { s with fileIdx := i', filePos := 0 } acc
      else
        let r := fileReadJ s readable
        let s2 := { r.2 with offset := r.2.offset + r.1.length }
        readLoop fuel (size - readable) i s2 (acc ++ r.1)
    else (acc, s)

/-- `JoinedFile.read(size)`: `size == -1` means read to the end; then run the
loop starting from the stencil of the current offset (`_findStencil` asserts
the offset is non-negative). -/
def readJ (s : JFile) (size : Int) : List Nat × JFile :=
  let sz := if size = -1 then (s.total : Int) - s.offset else size
  let i := findStencil s.cum s.offset.toNat
  readLoop (sz.toNat + s.parts.length + 1) sz i s []

/-- `JoinedFile.__init__`: keep only parts with positive size, then
`self.seek( 0 )` (before that seek no `fileobj` is open; the placeholder
`fileIdx = 0, filePos = 0` is never read in that state). -/
def mkJFile (partsIn : List (List Nat)) : JFile :=
  let s : JFile := { parts := partsIn.filter (fun p => !p.isEmpty), offset := 0,
                     currentFile := none, fileIdx := 0, filePos := 0 }
  (seekJ s 0 .seekSet).2

/-- **C10**: `seek` is not atomic on error.  Whenever the computed logical
position is negative (e.g. a `SEEK_CUR` or `SEEK_END` seek before the start),
the invalid-seek exception is raised only after `self.offset` has already
been updated: after the failed call, `tell()` returns the negative position,
not the offset that was current before the call. -/
theorem seek_error_not_atomic (s : JFile) (off : Int) (w : Whence)
    (hneg : seekNewOffset s off w < 0) :
    (seekJ s off w).1 = .error .exceptionError ∧
    tellJ (seekJ s off w).2 = seekNewOffset s off w ∧
    tellJ (seekJ s off w).2 < 0 ∧
    (0 ≤ s.offset → tellJ (seekJ s off w).2 ≠ tellJ s) := by
  refine ⟨?_, ?_, ?_, ?_⟩
  · simp [seekJ, if_pos hneg]
  · simp [seekJ, if_pos hneg, tellJ]
  · simpa [seekJ, if_pos hneg, tellJ] using hneg
  · intro hpos
    simp only [seekJ, if_pos hneg, tellJ]
    omega

theorem seek_error_not_atomic_witness :
    (seekJ (mkJFile [[9, 9, 9, 9, 9]]) (-7) .seekCur).1 = .error .exceptionError ∧
    tellJ (seekJ (mkJFile [[9, 9, 9, 9, 9]]) (-7) .seekCur).2 = -7 := by
  have h := seek_error_not_atomic (mkJFile [[9, 9, 9, 9, 9]]) (-7) .seekCur (by decide)
  exact ⟨h.1, h.2.1.trans (by decide)⟩

/-! ### Properties of the cumulative-size vector and `_findStencil` -/

theorem cumFrom_length (a : Nat) (l : List Nat) :
    (cumsizesFrom a l).length = l.length + 1 := by
  induction l generalizing a with
  | nil => rfl
  | cons s rest ih => simp [cumsizesFrom, ih]

theorem cumFrom_head (a : Nat) (l : List Nat) : (cumsizesFrom a l).getD 0 0 = a := by
  cases l <;> rfl

theorem cumFrom_getLastD (a : Nat) (l : List Nat) (d : Nat) :
    (cumsizesFrom a l).getLastD d = a + l.sum := by
  induction l generalizing a d with
  | nil => simp [cumsizesFrom]
  | cons s rest ih =>
    simp only [cumsizesFrom, List.getLastD_cons, ih, List.sum_cons]
    omega

theorem cumFrom_mem_ge (a : Nat) (l : List Nat) : ∀ x ∈ cumsizesFrom a l, a ≤ x := by
  induction l generalizing a with
  | nil => intro x hx; simp [cumsizesFrom] at hx; omega
  | cons s rest ih =>
    intro x hx
    simp only [cumsizesFrom, List.mem_cons] at hx
    rcases hx with rfl | hx
    · exact le_refl x
    · have := ih (a + s) x hx
      omega

theorem cumFrom_mem_le (a : Nat) (l : List Nat) : ∀ x ∈ cumsizesFrom a l, x ≤ a + l.sum := by
  induction l generalizing a with
  | nil => intro x hx; simp [cumsizesFrom] at hx; omega
  | cons s rest ih =>
    intro x hx
    simp only [cumsizesFrom, List.mem_cons] at hx
    rcases hx with rfl | hx
    · simp
    · have := ih (a + s) x hx
      simp only [List.sum_cons]
      omega

theorem cumFrom_getD (a : Nat) (l : List Nat) :
    ∀ i, i ≤ l.length → (cumsizesFrom a l).getD i 0 = a + (l.take i).sum := by
  induction l generalizing a with
  | nil =>
    intro i hi
    have hz : i = 0 := by simpa using hi
    subst hz
    simp [cumsizesFrom]
  | cons s rest ih =>
    intro i hi
    cases i with
    | zero =>
      rw [cumFrom_head]
      simp
    | succ k =>
      rw [show (cumsizesFrom a (s :: rest)).getD (k + 1) 0 =
        (cumsizesFrom (a + s) rest).getD k 0 from rfl]
      rw [ih (a + s) k (by simpa using hi)]
      simp only [List.take_succ_cons, List.sum_cons]
      omega

theorem cumFrom_self_mem (a : Nat) (l : List Nat) : a ∈ cumsizesFrom a l := by
  cases l <;> simp [cumsizesFrom]

/-- The master characterisation of `bisect_left(cumsizes, o + 1) - 1` over any
start offset `a`, proved by induction along the size list: the result is the
largest index whose partial sum is at most `o`, and (strictly inside the
range) the offset lies before the next partial sum. -/
theorem stencil_spec_from (l : List Nat) :
    ∀ (a o : Nat), (∀ s ∈ l, 0 < s) → a ≤ o → o ≤ a + l.sum →
      (cumsizesFrom a l).countP (fun x => x < o + 1) - 1 ≤ l.length ∧
      (cumsizesFrom a l).getD ((cumsizesFrom a l).countP (fun x => x < o + 1) - 1) 0 ≤ o ∧
      (∀ j, j < (cumsizesFrom a l).length → (cumsizesFrom a l).getD j 0 ≤ o →
        j ≤ (cumsizesFrom a l).countP (fun x => x < o + 1) - 1) ∧
      (o < a + l.sum →
        (cumsizesFrom a l).countP (fun x => x < o + 1) - 1 < l.length ∧
        o < (cumsizesFrom a l).getD
          ((cumsizesFrom a l).countP (fun x => x < o + 1) - 1 + 1) 0) := by
  induction l with
  | nil =>
    intro a o hpos hao hoa
    have ho : o = a := by
      simp only [List.sum_nil, Nat.add_zero] at hoa
      omega
    subst ho
    have hc : (cumsizesFrom o []).countP (fun x => x < o + 1) = 1 := by
      simp [cumsizesFrom, List.countP_cons, List.countP_nil]
    refine ⟨by simp [hc], by simp [hc, cumsizesFrom], ?_, ?_⟩
    · intro j hj _
      simp only [cumFrom_length, List.length_nil] at hj
      omega
    · intro hlt
      simp at hlt
  | cons s rest ih =>
    intro a o hpos hao hoa
    have hspos : 0 < s := hpos s (by simp)
    have hrpos : ∀ x ∈ rest, 0 < x := fun x hx => hpos x (by simp [hx])
    have hcount : (cumsizesFrom a (s :: rest)).countP (fun x => x < o + 1) =
        (cumsizesFrom (a + s) rest).countP (fun x => x < o + 1) + 1 := by
      simp only [cumsizesFrom, List.countP_cons]
      rw [if_pos (by simpa using Nat.lt_succ_of_le hao)]
    by_cases hcase : o < a + s
    · have hzero : (cumsizesFrom (a + s) rest).countP (fun x => x < o + 1) = 0 := by
        rw [List.countP_eq_zero]
        intro x hx
        have := cumFrom_mem_ge (a + s) rest x hx
        simp only [decide_eq_true_eq]
        omega
      rw [hcount, hzero]
      refine ⟨by simp, ?_, ?_, ?_⟩
      · simpa [cumsizesFrom] using hao
      · intro j hj hle
        cases j with
        | zero => omega
        | succ k =>
          simp only [cumFrom_length, List.length_cons] at hj
          simp only [cumsizesFrom, List.getD_cons_succ] at hle
          have hk : k < (cumsizesFrom (a + s) rest).length := by
            simp only [cumFrom_length]
            omega
          have hmem : (cumsizesFrom (a + s) rest).getD k 0 ∈ cumsizesFrom (a + s) rest := by
            rw [List.getD_eq_getElem _ _ hk]
            exact List.getElem_mem hk
          have := cumFrom_mem_ge (a + s) rest _ hmem
          omega
      · intro _
        refine ⟨by simp, ?_⟩
        rw [show (cumsizesFrom a (s :: rest)).getD (0 + 1) 0 =
          (cumsizesFrom (a + s) rest).getD 0 0 from rfl, cumFrom_head]
        exact hcase
    · push_neg at hcase
      have hoa' : o ≤ (a + s) + rest.sum := by
        simp only [List.sum_cons] at hoa
        omega
      obtain ⟨ih1, ih2, ih3, ih4⟩ := ih (a + s) o hrpos hcase hoa'
      have hcpos : 0 < (cumsizesFrom (a + s) rest).countP (fun x => x < o + 1) := by
        rw [List.countP_pos_iff]
        exact ⟨a + s, cumFrom_self_mem _ _, by simpa using Nat.lt_succ_of_le hcase⟩
      rw [hcount]
      set cr := (cumsizesFrom (a + s) rest).countP (fun x => x < o + 1) with hcr
      have hidx : cr + 1 - 1 = (cr - 1) + 1 := by omega
      rw [hidx]
      refine ⟨?_, ?_, ?_, ?_⟩
      · simp only [List.length_cons]
        omega
      · rw [show (cumsizesFrom a (s :: rest)).getD ((cr - 1) + 1) 0 =
          (cumsizesFrom (a + s) rest).getD (cr - 1) 0 from rfl]
        exact ih2
      · intro j hj hle
        cases j with
        | zero => omega
        | succ k =>
          simp only [cumFrom_length, List.length_cons] at hj
          rw [show (cumsizesFrom a (s :: rest)).getD (k + 1) 0 =
            (cumsizesFrom (a + s) rest).getD k 0 from rfl] at hle
          have := ih3 k (by simp only [cumFrom_length]; omega) hle
          omega
      · intro hlt
        have hlt' : o < (a + s) + rest.sum := by
          simp only [List.sum_cons] at hlt
          omega
        obtain ⟨ihl, ihr⟩ := ih4 hlt'
        refine ⟨by simp only [List.length_cons]; omega, ?_⟩
        rw [show (cumsizesFrom a (s :: rest)).getD ((cr - 1) + 1 + 1) 0 =
          (cumsizesFrom (a + s) rest).getD ((cr - 1) + 1) 0 from rfl]
        exact ihr

theorem sum_take_le (m : List Nat) (j : Nat) : (m.take j).sum ≤ m.sum := by
  conv_rhs => rw [← List.take_append_drop j m]
  rw [List.sum_append]
  omega

theorem sum_take_mono (l : List Nat) (j k : Nat) (h : j ≤ k) :
    (l.take j).sum ≤ (l.take k).sum := by
  calc (l.take j).sum = ((l.take k).take j).sum := by
        rw [List.take_take, Nat.min_eq_left h]
    _ ≤ (l.take k).sum := sum_take_le (l.take k) j

theorem cum_getD_mono (sizes : List Nat) (j k : Nat) (hjk : j ≤ k)
    (hk : k ≤ sizes.length) :
    (cumsizes sizes).getD j 0 ≤ (cumsizes sizes).getD k 0 := by
  unfold cumsizes
  rw [cumFrom_getD 0 sizes j (le_trans hjk hk), cumFrom_getD 0 sizes k hk]
  have := sum_take_mono sizes j k hjk
  omega

theorem findStencil_spec (sizes : List Nat) (o : Nat) (hpos : ∀ s ∈ sizes, 0 < s)
    (ho : o ≤ sizes.sum) :
    findStencil (cumsizes sizes) o ≤ sizes.length ∧
    (cumsizes sizes).getD (findStencil (cumsizes sizes) o) 0 ≤ o ∧
    (∀ j, j < (cumsizes sizes).length → (cumsizes sizes).getD j 0 ≤ o →
      j ≤ findStencil (cumsizes sizes) o) ∧
    (o < sizes.sum →
      findStencil (cumsizes sizes) o < sizes.length ∧
      o < (cumsizes sizes).getD (findStencil (cumsizes sizes) o + 1) 0) := by
  have h := stencil_spec_from sizes 0 o hpos (Nat.zero_le o) (by simpa using ho)
  simpa [findStencil, bisectLeft, cumsizes] using h

theorem findStencil_total (sizes : List Nat) :
    findStencil (cumsizes sizes) sizes.sum = sizes.length := by
  have hall : (cumsizes sizes).countP (fun x => x < sizes.sum + 1) =
      (cumsizes sizes).length := by
    rw [List.countP_eq_length]
    intro x hx
    have := cumFrom_mem_le 0 sizes x hx
    simp only [decide_eq_true_eq]
    omega
  unfold findStencil bisectLeft
  rw [hall]
  unfold cumsizes
  rw [cumFrom_length]
  omega

theorem cum_getD_length (sizes : List Nat) :
    (cumsizes sizes).getD sizes.length 0 = sizes.sum := by
  unfold cumsizes
  rw [cumFrom_getD 0 sizes sizes.length le_rfl]
  simp

/-- **C3**: for part sizes that are all positive and a logical offset
`0 ≤ o ≤ Σ sizes`, `_findStencil` returns the largest index `i` with
`cumulative[i] ≤ o`; this index is the unique one with
`cumulative[i] ≤ o < cumulative[i+1]` whenever such an index exists (in
particular for every `o < Σ sizes`). -/
theorem findStencil_owning_part (sizes : List Nat) (o : Nat)
    (hpos : ∀ s ∈ sizes, 0 < s) (ho : o ≤ sizes.sum) :
    (cumsizes sizes).getD (findStencil (cumsizes sizes) o) 0 ≤ o ∧
    (∀ j, j < (cumsizes sizes).length → (cumsizes sizes).getD j 0 ≤ o →
      j ≤ findStencil (cumsizes sizes) o) ∧
    (∀ j, j + 1 < (cumsizes sizes).length → (cumsizes sizes).getD j 0 ≤ o →
      o < (cumsizes sizes).getD (j + 1) 0 → j = findStencil (cumsizes sizes) o) ∧
    (o < sizes.sum →
      findStencil (cumsizes sizes) o + 1 < (cumsizes sizes).length ∧
      o < (cumsizes sizes).getD (findStencil (cumsizes sizes) o + 1) 0) := by
  obtain ⟨hle, hbase, hlargest, hbracket⟩ := findStencil_spec sizes o hpos ho
  have hlen : (cumsizes sizes).length = sizes.length + 1 := by
    unfold cumsizes
    rw [cumFrom_length]
  refine ⟨hbase, hlargest, ?_, ?_⟩
  · intro j hj hja hjb
    have hji := hlargest j (by omega) hja
    by_contra hne
    have hjlt : j + 1 ≤ findStencil (cumsizes sizes) o := by omega
    have hmono := cum_getD_mono sizes (j + 1) (findStencil (cumsizes sizes) o) hjlt hle
    omega
  · intro hlt
    obtain ⟨hil, hio⟩ := hbracket hlt
    exact ⟨by omega, hio⟩

theorem findStencil_owning_part_witness :
    (cumsizes [2, 2, 2, 4, 8, 1]).getD (findStencil (cumsizes [2, 2, 2, 4, 8, 1]) 6) 0 ≤ 6 :=
  (findStencil_owning_part [2, 2, 2, 4, 8, 1] 6 (by decide) (by decide)).1

/-! ### Correctness of `JoinedFile.read` after a `seek` (claim C2) -/

theorem sizes_getD (P : List (List Nat)) (i : Nat) (h : i < P.length) :
    (P.map List.length).getD i 0 = (P.getD i []).length := by
  rw [List.getD_eq_getElem _ _ (by simpa using h), List.getD_eq_getElem _ _ h]
  simp

theorem cum_getD_succ (sizes : List Nat) (i : Nat) (h : i < sizes.length) :
    (cumsizes sizes).getD (i + 1) 0 = (cumsizes sizes).getD i 0 + sizes.getD i 0 := by
  unfold cumsizes
  rw [cumFrom_getD 0 sizes (i + 1) (by omega), cumFrom_getD 0 sizes i (by omega),
    List.sum_take_succ _ _ h, List.getD_eq_getElem _ _ h]
  omega

theorem flatten_drop_sum : ∀ (P : List (List Nat)) (i : Nat), i ≤ P.length →
    P.flatten.drop (((P.map List.length).take i).sum) = (P.drop i).flatten := by
  intro P
  induction P with
  | nil =>
    intro i hi
    have hz : i = 0 := by simpa using hi
    subst hz
    simp
  | cons p ps ih =>
    intro i hi
    cases i with
    | zero => simp
    | succ k =>
      simp only [List.map_cons, List.take_succ_cons, List.sum_cons, List.flatten_cons,
        List.drop_succ_cons]
      rw [List.drop_append]
      exact ih k (by simpa using hi)

theorem list_drop_cons (P : List (List Nat)) (i : Nat) (h : i < P.length) :
    P.drop i = P.getD i [] :: P.drop (i + 1) := by
  rw [List.getD_eq_getElem _ _ h]
  exact List.drop_eq_getElem_cons h

theorem readLoop_succ_stop (fuel : Nat) (size : Int) (i : Nat) (s : JFile) (acc : List Nat)
    (h : ¬ (0 < size ∧ i < s.sizes.length)) :
    readLoop (fuel + 1) size i s acc = (acc, s) := by
  rw [readLoop, if_neg h]

theorem readLoop_succ_next (fuel : Nat) (size : Int) (i : Nat) (s : JFile) (acc : List Nat)
    (hcond : 0 < size ∧ i < s.sizes.length)
    (hzero : min size ((s.sizes.getD i 0 : Int) - (s.offset - (s.cum.getD i 0 : Int))) = 0) :
    readLoop (fuel + 1) size i s acc =
      if s.parts.length ≤ i + 1 then (acc, s)
      else readLoop fuel size (i + 1) { s with fileIdx := i + 1, filePos := 0 } acc := by
  rw [readLoop, if_pos hcond]
  simp only [hzero, if_true]

theorem readLoop_succ_read (fuel : Nat) (size : Int) (i : Nat) (s : JFile) (acc : List Nat)
    (hcond : 0 < size ∧ i < s.sizes.length)
    (hnz : ¬ min size ((s.sizes.getD i 0 : Int) - (s.offset - (s.cum.getD i 0 : Int))) = 0) :
    readLoop (fuel + 1) size i s acc =
      readLoop fuel
        (size - min size ((s.sizes.getD i 0 : Int) - (s.offset - (s.cum.getD i 0 : Int)))) i
        { (fileReadJ s
            (min size ((s.sizes.getD i 0 : Int) - (s.offset - (s.cum.getD i 0 : Int))))).2 with
          offset := (fileReadJ s
              (min size ((s.sizes.getD i 0 : Int) - (s.offset - (s.cum.getD i 0 : Int))))).2.offset +
            (fileReadJ s
              (min size ((s.sizes.getD i 0 : Int) - (s.offset - (s.cum.getD i 0 : Int))))).1.length }
        (acc ++ (fileReadJ s
          (min size ((s.sizes.getD i 0 : Int) - (s.offset - (s.cum.getD i 0 : Int))))).1) := by
  rw [readLoop, if_pos hcond]
  simp only [hnz, if_false]

theorem readLoop_spec (P : List (List Nat)) :
    ∀ (fuel : Nat) (size : Int) (i off : Nat) (acc : List Nat) (s : JFile),
      s.parts = P → s.offset = (off : Int) → s.fileIdx = i →
      s.filePos = off - (cumsizes (P.map List.length)).getD i 0 →
      i < P.length →
      (cumsizes (P.map List.length)).getD i 0 ≤ off →
      off ≤ (cumsizes (P.map List.length)).getD (i + 1) 0 →
      size.toNat + (P.length - i) ≤ fuel →
      (readLoop fuel size i s acc).1 = acc ++ (P.flatten.drop off).take size.toNat := by
  intro fuel
  induction fuel with
  | zero =>
    intro size i off acc s _ _ _ _ hi _ _ hfuel
    omega
  | succ fuel ih =>
    intro size i off acc s hparts hoff hidx hfpos hi hcl hcr hfuel
    have hss : s.sizes = P.map List.length := by
      simp [JFile.sizes, hparts]
    have hsc : s.cum = cumsizes (P.map List.length) := by
      simp [JFile.cum, hss]
    have hSZlen : (P.map List.length).length = P.length := by simp
    by_cases hsz : 0 < size
    · have hcond : 0 < size ∧ i < s.sizes.length := ⟨hsz, by rw [hss, hSZlen]; exact hi⟩
      have hszi : (P.map List.length).getD i 0 = (P.getD i []).length := sizes_getD P i hi
      have hsucc : (cumsizes (P.map List.length)).getD (i + 1) 0 =
          (cumsizes (P.map List.length)).getD i 0 + (P.map List.length).getD i 0 :=
        cum_getD_succ (P.map List.length) i (by rw [hSZlen]; exact hi)
      have hrem : (s.sizes.getD i 0 : Int) - (s.offset - (s.cum.getD i 0 : Int)) =
          ((cumsizes (P.map List.length)).getD (i + 1) 0 : Int) - (off : Int) := by
        rw [hss, hsc, hoff]
        omega
      by_cases hoffc : off = (cumsizes (P.map List.length)).getD (i + 1) 0
      · -- exhausted the current part: `readableSize == 0`, move to the next file
        have hzero : min size ((s.sizes.getD i 0 : Int) - (s.offset - (s.cum.getD i 0 : Int))) =
            0 := by
          rw [hrem, hoffc]
          omega
        rw [readLoop_succ_next fuel size i s acc hcond hzero]
        by_cases hend : s.parts.length ≤ i + 1
        · rw [if_pos hend]
          have hiP : i + 1 = P.length := by
            rw [hparts] at hend
            omega
          have hofftotal : off = (P.map List.length).sum := by
            rw [hoffc, hiP, ← hSZlen, cum_getD_length]
          have hflat : P.flatten.length ≤ off := by
            rw [List.length_flatten, hofftotal]
          rw [List.drop_eq_nil_of_le hflat]
          simp
        · rw [if_neg hend]
          have hi1 : i + 1 < P.length := by
            rw [hparts] at hend
            omega
          apply ih size (i + 1) off acc _ (by simp [hparts]) (by simp [hoff]) (by simp) ?_
            hi1 ?_ ?_ ?_
          · show (0 : Nat) = off - (cumsizes (P.map List.length)).getD (i + 1) 0
            omega
          · omega
          · have := cum_getD_mono (P.map List.length) (i + 1) (i + 1 + 1) (by omega)
              (by rw [hSZlen]; omega)
            omega
          · omega
      · -- data available in the current part: read `readableSize` bytes
        have hofflt : off < (cumsizes (P.map List.length)).getD (i + 1) 0 := by
          omega
        have hnz : ¬ min size ((s.sizes.getD i 0 : Int) - (s.offset - (s.cum.getD i 0 : Int))) =
            0 := by
          rw [hrem]
          omega
        rw [readLoop_succ_read fuel size i s acc hcond hnz]
        set readable :=
          min size ((s.sizes.getD i 0 : Int) - (s.offset - (s.cum.getD i 0 : Int)))
          with hreaddef
        have hreq : readable = min size
            (((cumsizes (P.map List.length)).getD (i + 1) 0 : Int) - (off : Int)) := by
          rw [hreaddef, hrem]
        have hrpos : (1 : Int) ≤ readable := by
          rw [hreq]
          omega
        have hrle : readable ≤ ((cumsizes (P.map List.length)).getD (i + 1) 0 : Int) -
            (off : Int) := by
          rw [hreq]
          omega
        have hrsize : readable ≤ size := by
          rw [hreq]
          omega
        have hknneg : ¬ readable < 0 := by omega
        have hcontent : s.parts.getD s.fileIdx [] = P.getD i [] := by
          rw [hparts, hidx]
        have htmp : (fileReadJ s readable).1 =
            ((P.getD i []).drop (off - (cumsizes (P.map List.length)).getD i 0)).take
              readable.toNat := by
          simp only [fileReadJ, if_neg hknneg, hcontent, hfpos]
        have havailLen :
            ((P.getD i []).drop (off - (cumsizes (P.map List.length)).getD i 0)).length =
              (cumsizes (P.map List.length)).getD (i + 1) 0 - off := by
          rw [List.length_drop, ← hszi]
          omega
        have htmpLen : (fileReadJ s readable).1.length = readable.toNat := by
          rw [htmp, List.length_take, havailLen]
          omega
        have hfrPos : (fileReadJ s readable).2.filePos =
            s.filePos + (fileReadJ s readable).1.length := rfl
        have hfrParts : (fileReadJ s readable).2.parts = s.parts := rfl
        have hfrIdx : (fileReadJ s readable).2.fileIdx = s.fileIdx := rfl
        have hfrOff : (fileReadJ s readable).2.offset = s.offset := rfl
        -- the bytes read are exactly the next slice of the concatenation
        have hcumtake : (cumsizes (P.map List.length)).getD i 0 =
            ((P.map List.length).take i).sum := by
          unfold cumsizes
          rw [cumFrom_getD 0 (P.map List.length) i (by rw [hSZlen]; omega)]
          omega
        have hdropcum : P.flatten.drop ((cumsizes (P.map List.length)).getD i 0) =
            (P.drop i).flatten := by
          rw [hcumtake]
          exact flatten_drop_sum P i (le_of_lt hi)
        have hdropoff : P.flatten.drop off =
            ((P.getD i []).drop (off - (cumsizes (P.map List.length)).getD i 0)) ++
              (P.drop (i + 1)).flatten := by
          have h2 : (P.drop i).flatten = P.getD i [] ++ (P.drop (i + 1)).flatten := by
            rw [list_drop_cons P i hi, List.flatten_cons]
          calc P.flatten.drop off
              = (P.flatten.drop ((cumsizes (P.map List.length)).getD i 0)).drop
                  (off - (cumsizes (P.map List.length)).getD i 0) := by
                rw [List.drop_drop]
                congr 1
                omega
            _ = (P.getD i [] ++ (P.drop (i + 1)).flatten).drop
                  (off - (cumsizes (P.map List.length)).getD i 0) := by
                rw [hdropcum, h2]
            _ = ((P.getD i []).drop (off - (cumsizes (P.map List.length)).getD i 0)) ++
                  (P.drop (i + 1)).flatten := by
                apply List.drop_append_of_le_length
                rw [← hszi]
                omega
        have htake : (P.flatten.drop off).take size.toNat =
            (fileReadJ s readable).1 ++
              (P.flatten.drop (off + readable.toNat)).take (size.toNat - readable.toNat) := by
          rw [show size.toNat = readable.toNat + (size.toNat - readable.toNat) from by omega,
            List.take_add, htmp]
          have hdd : (P.flatten.drop off).drop readable.toNat =
              P.flatten.drop (off + readable.toNat) := by
            rw [List.drop_drop]
          rw [hdd]
          congr 1
          · rw [hdropoff]
            apply List.take_append_of_le_length
            rw [havailLen]
            omega
          · congr 1
            omega
        rw [ih (size - readable) i (off + readable.toNat)
          (acc ++ (fileReadJ s readable).1) _ ?_ ?_ ?_ ?_ hi ?_ ?_ ?_]
        · rw [htake, List.append_assoc,
            show (size - readable).toNat = size.toNat - readable.toNat from by omega]
        · show (fileReadJ s readable).2.parts = P
          rw [hfrParts, hparts]
        · show (fileReadJ s readable).2.offset + ((fileReadJ s readable).1.length : Int) =
            ((off + readable.toNat : Nat) : Int)
          rw [hfrOff, hoff, htmpLen]
          push_cast
          ring
        · show (fileReadJ s readable).2.fileIdx = i
          rw [hfrIdx, hidx]
        · show (fileReadJ s readable).2.filePos =
            (off + readable.toNat) - (cumsizes (P.map List.length)).getD i 0
          rw [hfrPos, htmpLen, hfpos]
          omega
        · omega
        · omega
        · omega
    · have hcond : ¬ (0 < size ∧ i < s.sizes.length) := by
        intro hc
        exact hsz hc.1
      rw [readLoop_succ_stop fuel size i s acc hcond]
      have hz : size.toNat = 0 := by omega
      rw [hz]
      simp

/-! ### The state right after `seek(o, SEEK_SET)` -/

theorem seekJ_parts (s : JFile) (off : Int) (w : Whence) :
    (seekJ s off w).2.parts = s.parts := by
  simp only [seekJ]
  split_ifs <;> rfl

theorem seekJ_currentFile (s : JFile) (off : Int) (w : Whence) :
    (seekJ s off w).2.currentFile = s.currentFile := by
  simp only [seekJ]
  split_ifs <;> rfl

theorem filter_nonempty_eq (parts : List (List Nat)) (hne : ∀ p ∈ parts, p ≠ []) :
    parts.filter (fun p => !p.isEmpty) = parts := by
  apply List.filter_eq_self.mpr
  intro p hp
  simp [List.isEmpty_iff, hne p hp]

theorem mkJFile_parts_eq (parts : List (List Nat)) (hne : ∀ p ∈ parts, p ≠ []) :
    (mkJFile parts).parts = parts := by
  simp only [mkJFile, seekJ_parts]
  exact filter_nonempty_eq parts hne

theorem mkJFile_currentFile (parts : List (List Nat)) :
    (mkJFile parts).currentFile = none := by
  simp only [mkJFile]
  rw [seekJ_currentFile]

theorem total_eq_flatten_length (s : JFile) : s.total = s.parts.flatten.length := by
  unfold JFile.total JFile.cum JFile.sizes cumsizes
  rw [cumFrom_getLastD, List.length_flatten]
  omega

theorem seekJ_set_end (s : JFile) (o : Nat) (ho : s.total ≤ o) :
    (seekJ s (o : Int) .seekSet).2 = { s with offset := (o : Int) } := by
  simp only [seekJ, seekNewOffset]
  rw [if_neg (by omega), if_pos (by exact_mod_cast ho)]

theorem seekJ_set_mid (s : JFile) (o : Nat) (hcf : s.currentFile = none)
    (ho : o < s.total) :
    (seekJ s (o : Int) .seekSet).2 =
      { s with offset := (o : Int),
               fileIdx := findStencil s.cum o,
               filePos := o - s.cum.getD (findStencil s.cum o) 0 } := by
  simp only [seekJ, seekNewOffset]
  split_ifs with h1 h2 h3
  · omega
  · simp only [JFile.total, JFile.cum, JFile.sizes] at h2 ho
    omega
  · rw [hcf] at h3
    exact Option.noConfusion h3
  · simp only [JFile.cum, JFile.sizes, Int.toNat_natCast]

/-- **C2**: joined-file read/seek equivalence.  For every `JoinedFile` built
over non-empty parts whose concatenated contents are `C`, every logical
offset `0 ≤ o ≤ |C|` and every count `n ≥ 0`, calling `seek(o)` followed by
`read(n)` returns exactly the byte slice `C[o : o + n]` (fewer bytes when
`o + n` exceeds `|C|`), and `seek(o)` followed by `read(-1)` returns
`C[o : |C|]`. -/
theorem joined_read_seek_equivalence (parts : List (List Nat)) (o : Nat) (n : Int)
    (hne : ∀ p ∈ parts, p ≠ []) (ho : o ≤ parts.flatten.length) (hn : 0 ≤ n) :
    (readJ (seekJ (mkJFile parts) (o : Int) .seekSet).2 n).1 =
      (parts.flatten.drop o).take n.toNat ∧
    (readJ (seekJ (mkJFile parts) (o : Int) .seekSet).2 (-1)).1 =
      parts.flatten.drop o := by
  have hs0p : (mkJFile parts).parts = parts := mkJFile_parts_eq parts hne
  have hs0c : (mkJFile parts).currentFile = none := mkJFile_currentFile parts
  have hs0t : (mkJFile parts).total = parts.flatten.length := by
    rw [total_eq_flatten_length, hs0p]
  have hn1 : n ≠ -1 := by omega
  have hpos : ∀ x ∈ parts.map List.length, 0 < x := by
    intro x hx
    obtain ⟨p, hp, rfl⟩ := List.mem_map.mp hx
    have hp0 := hne p hp
    cases p with
    | nil => exact absurd rfl hp0
    | cons a t => simp
  have hsum : (parts.map List.length).sum = parts.flatten.length := by
    rw [List.length_flatten]
  by_cases hoe : o < parts.flatten.length
  · -- the seek lands strictly inside the joined file
    have hmid := seekJ_set_mid (mkJFile parts) o hs0c (by omega)
    obtain ⟨hle, hcl, hlarge, hbr⟩ :=
      findStencil_spec (parts.map List.length) o hpos (by rw [hsum]; exact ho)
    obtain ⟨hilt, hcr⟩ := hbr (by rw [hsum]; exact hoe)
    set C := cumsizes (parts.map List.length) with hC
    set i := findStencil C o with hidef
    set s2 := (seekJ (mkJFile parts) (o : Int) .seekSet).2 with hs2
    have hmc : (mkJFile parts).cum = C := by
      simp only [JFile.cum, JFile.sizes, hs0p, hC]
    have hs2p : s2.parts = parts := by
      rw [hmid]
      exact hs0p
    have hs2off : s2.offset = (o : Int) := by
      rw [hmid]
    have hs2cum : s2.cum = C := by
      simp only [JFile.cum, JFile.sizes, hs2p, hC]
    have hs2idx : s2.fileIdx = i := by
      rw [hmid]
      show findStencil (mkJFile parts).cum o = i
      rw [hmc, hidef]
    have hs2fp : s2.filePos = o - C.getD i 0 := by
      rw [hmid]
      show o - (mkJFile parts).cum.getD (findStencil (mkJFile parts).cum o) 0 =
        o - C.getD i 0
      rw [hmc, hidef]
    have hfs2 : findStencil s2.cum s2.offset.toNat = i := by
      rw [hs2cum, hs2off, Int.toNat_natCast, hidef]
    have hilen : i < parts.length := by simpa using hilt
    have hcrle : o ≤ C.getD (i + 1) 0 := le_of_lt hcr
    constructor
    · simp only [readJ]
      rw [if_neg hn1, hfs2]
      rw [show s2.parts.length = parts.length from by rw [hs2p]]
      rw [readLoop_spec parts (n.toNat + parts.length + 1) n i o [] s2 hs2p hs2off hs2idx
        hs2fp hilen hcl hcrle (by omega)]
      rw [List.nil_append]
    · simp only [readJ]
      rw [if_pos trivial, hfs2]
      rw [show s2.parts.length = parts.length from by rw [hs2p]]
      have hs2t : s2.total = parts.flatten.length := by
        rw [total_eq_flatten_length, hs2p]
      rw [hs2t, hs2off]
      have hszn : ((parts.flatten.length : Int) - (o : Int)).toNat =
          parts.flatten.length - o := by
        omega
      rw [hszn]
      rw [readLoop_spec parts (parts.flatten.length - o + parts.length + 1)
        ((parts.flatten.length : Int) - (o : Int)) i o [] s2 hs2p hs2off hs2idx hs2fp hilen
        hcl hcrle (by omega)]
      rw [hszn, List.nil_append]
      apply List.take_of_length_le
      rw [List.length_drop]
  · -- the seek lands exactly at the end: the read loop stops at once
    have hoeq : o = parts.flatten.length := by omega
    have hend := seekJ_set_end (mkJFile parts) o (by omega)
    set s1 := (seekJ (mkJFile parts) (o : Int) .seekSet).2 with hs1
    have hs1p : s1.parts = parts := by
      rw [hend]
      exact hs0p
    have hs1off : s1.offset = (o : Int) := by
      rw [hend]
    have hs1sizes : s1.sizes.length = parts.length := by
      simp [JFile.sizes, hs1p]
    have hfs : findStencil s1.cum s1.offset.toNat = parts.length := by
      have hc : s1.cum = cumsizes (parts.map List.length) := by
        simp only [JFile.cum, JFile.sizes, hs1p]
      rw [hc, hs1off, Int.toNat_natCast, hoeq, ← hsum, findStencil_total]
      simp
    constructor
    · simp only [readJ]
      rw [if_neg hn1, hfs]
      rw [show s1.parts.length = parts.length from by rw [hs1p]]
      rw [readLoop_succ_stop (n.toNat + parts.length) n parts.length s1 []
        (by
          intro hcont
          rw [hs1sizes] at hcont
          omega)]
      rw [hoeq, List.drop_length, List.take_nil]
    · simp only [readJ]
      rw [if_pos trivial, hfs]
      rw [show s1.parts.length = parts.length from by rw [hs1p]]
      rw [readLoop_succ_stop (((s1.total : Int) - s1.offset).toNat + parts.length)
        ((s1.total : Int) - s1.offset) parts.length s1 []
        (by
          intro hcont
          rw [hs1sizes] at hcont
          omega)]
      rw [hoeq, List.drop_length]

theorem joined_read_seek_equivalence_witness :
    (readJ (seekJ (mkJFile [[0, 1], [2, 3]]) ((1 : Nat) : Int) .seekSet).2 2).1 = [1, 2] ∧
    (readJ (seekJ (mkJFile [[0, 1], [2, 3]]) ((1 : Nat) : Int) .seekSet).2 (-1)).1 =
      [1, 2, 3] := by
  have h := joined_read_seek_equivalence [[0, 1], [2, 3]] 1 2 (by decide) (by decide)
    (by decide)
  exact ⟨h.1.trans (by decide), h.2.trans (by decide)⟩
